import Mathlib

/-!
# lens-factory: the log-message enrichment routine

Shallow embedding of `enrichLogMessage` (src/main.go, lines 46-90) together
with the parts of the Go standard library it calls: the regular expression
`(?i)(оборудовани[а-я]*)\s+(\d+)` with the leftmost-first, greedy matching
of package `regexp`, `Regexp.FindStringSubmatch`,
`Regexp.ReplaceAllStringFunc`, `strconv.Itoa` and the `map[string]string`
built from the rows of the equipment catalog.

Texts are sequences of Unicode code points (`List Char`), i.e. Go strings
holding valid UTF-8.
-/

namespace LensFactory

/-- A Go string, as the sequence of its runes. -/
abbrev Text := List Char

/-! ## Character classes of the regular expression -/

/-- Representative of the `unicode.SimpleFold` orbit of a rune, for the
orbits that meet the range U+0430..U+044F (а..я): the capitals
U+0410..U+042F and the historic variants U+1C80..U+1C86 fold onto the small
letters; every other rune is left alone. -/
def simpleFoldLower (c : Char) : Nat :=
  let n := c.toNat
  if 0x410 ≤ n ∧ n ≤ 0x42F then n + 0x20
  else if n = 0x1C80 then 0x432
  else if n = 0x1C81 then 0x434
  else if n = 0x1C82 then 0x43E
  else if n = 0x1C83 then 0x441
  else if n = 0x1C84 then 0x442
  else if n = 0x1C85 then 0x442
  else if n = 0x1C86 then 0x44A
  else n

/-- The rune `c` matches the literal `l` (a letter of а..я) under `(?i)`. -/
def foldLit (l : Char) (c : Char) : Bool :=
  simpleFoldLower c == l.toNat

/-- The class `[а-я]` under `(?i)`. -/
def foldLetter (c : Char) : Bool :=
  0x430 ≤ simpleFoldLower c && simpleFoldLower c ≤ 0x44F

/-- The class `\s` of package regexp: `[\t\n\f\r ]`. -/
def isSpace (c : Char) : Bool :=
  c.toNat == 9 || c.toNat == 10 || c.toNat == 12 || c.toNat == 13 || c.toNat == 32

/-- The class `\d` of package regexp: `[0-9]`. -/
def isDigit (c : Char) : Bool :=
  0x30 ≤ c.toNat && c.toNat ≤ 0x39

/-! ## A backtracking matcher for sequences of quantified classes -/

/-- Quantifier of one item of the expression: exactly one rune, `*` or `+`
(both greedy). -/
inductive Quant where
  | one
  | star
  | plus

/-- One item of the expression: a character class and its quantifier. -/
structure Item where
  cls : Char → Bool
  q : Quant

/-- Greedy repetition of a class followed by the continuation `k`: the
longest run is tried first and given back rune by rune while `k` fails.
Returns the text consumed by the repetition and the result of `k`. -/
def matchStar (cls : Char → Bool) (k : Text → Option (List Text)) :
    Text → Option (Text × List Text)
  | [] => (k []).map (fun r => ([], r))
  | c :: cs =>
    if cls c then
      match matchStar cls k cs with
      | some (t, r) => some (c :: t, r)
      | none => (k (c :: cs)).map (fun r => ([], r))
    else (k (c :: cs)).map (fun r => ([], r))

/-- Match the items in sequence at the start of the input; the result lists
the text consumed by each item. -/
def matchItems : List Item → Text → Option (List Text)
  | [], _ => some []
  | it :: rest, s =>
    match it.q with
    | Quant.one =>
      match s with
      | [] => none
      | c :: cs => if it.cls c then (matchItems rest cs).map (fun r => [c] :: r) else none
    | Quant.star =>
      (matchStar it.cls (fun s1 => matchItems rest s1) s).map (fun p => p.1 :: p.2)
    | Quant.plus =>
      match s with
      | [] => none
      | c :: cs =>
        if it.cls c then
          (matchStar it.cls (fun s1 => matchItems rest s1) cs).map (fun p => (c :: p.1) :: p.2)
        else none

/-! ## The expression of `enrichLogMessage` -/

/-- The literal stem of the expression. -/
def stem : Text := "оборудовани".toList

/-- Items of capture group 1, `(оборудовани[а-я]*)`, under `(?i)`. -/
def wordItems : List Item :=
  stem.map (fun l => Item.mk (foldLit l) Quant.one) ++ [Item.mk foldLetter Quant.star]

/-- The expression `(?i)(оборудовани[а-я]*)\s+(\d+)` as a sequence of items. -/
def re : List Item :=
  wordItems ++ [Item.mk isSpace Quant.plus, Item.mk isDigit Quant.plus]

/-- One match of the expression: capture 1, the whitespace run, capture 2. -/
structure Match where
  word : Text
  space : Text
  id : Text
deriving DecidableEq

/-- The whole matched text (capture 0). -/
def Match.text (m : Match) : Text := m.word ++ m.space ++ m.id

/-- Match the expression at the start of the input and cut the consumed
pieces into the capture groups. -/
def matchPrefix (s : Text) : Option Match :=
  (matchItems re s).map (fun ps =>
    Match.mk (ps.take wordItems.length).flatten
      ((ps.drop wordItems.length).take 1).flatten
      (ps.drop (wordItems.length + 1)).flatten)

/-- Leftmost match: the offset of the first position at which the
expression matches, and the match found there. -/
def findMatch : Text → Option (Nat × Match)
  | [] => none
  | c :: cs =>
    match matchPrefix (c :: cs) with
    | some m => some (0, m)
    | none => (findMatch cs).map (fun r => (r.1 + 1, r.2))

/-- Model of `re.FindStringSubmatch`: the whole match and the two captures of
the leftmost match, or the empty slice. -/
def FindStringSubmatch (s : Text) : List Text :=
  match findMatch s with
  | none => []
  | some (_, m) => [m.text, m.word, m.id]

/-- The loop of `re.ReplaceAllStringFunc`: copy the text before the leftmost
match, append the replacement of the match, go on behind the match. -/
def replaceLoop (repl : Text → Text) : Nat → Text → Text
  | 0, src => src
  | fuel + 1, src =>
    match findMatch src with
    | none => src
    | some (a, m) =>
      src.take a ++ repl m.text ++ replaceLoop repl fuel (src.drop (a + m.text.length))

/-- Model of `re.ReplaceAllStringFunc`; every match is non-empty, so the loop
runs at most `len(src)` times. -/
def ReplaceAllStringFunc (src : Text) (repl : Text → Text) : Text :=
  replaceLoop repl (src.length + 1) src

/-! ## strconv.Itoa and the equipment map -/

/-- The decimal digit `d` as a rune. -/
def digitChar (d : Nat) : Char := Char.ofNat (0x30 + d % 10)

/-- Decimal digits of a natural number, most significant first. -/
def formatNat : Nat → Nat → Text
  | 0, u => [digitChar u]
  | fuel + 1, u => if u < 10 then [digitChar u] else formatNat fuel (u / 10) ++ [digitChar u]

/-- Model of `strconv.Itoa`. -/
def Itoa (i : Int) : Text :=
  if i < 0 then '-' :: formatNat i.natAbs i.natAbs else formatNat i.natAbs i.natAbs

/-- A row of `SELECT equipment_id, title FROM equipment` as `rows.Scan`
delivers it: the two columns, or `none` when `Scan` returns an error. -/
abbrev Row := Option (Int × Text)

/-- What `db.Query` returns: `none` for an error, else the rows. -/
abbrev Catalog := Option (List Row)

/-- A `map[string]string`; the first binding of a key is the current one. -/
abbrev EquipMap := List (Text × Text)

/-- Lookup `equipMap[id]` with the comma-ok result. -/
def mapGet (m : EquipMap) (k : Text) : Option Text :=
  match m with
  | [] => none
  | (k1, v) :: rest => if k1 = k then some v else mapGet rest k

/-- The loop over `rows.Next()`: a row that scans sets
`equipMap[strconv.Itoa(id)] = title`, a row that does not is skipped. -/
def buildEquipMap (rows : List Row) : EquipMap :=
  rows.foldl (fun m row =>
    match row with
    | some (id, title) => (Itoa id, title) :: m
    | none => m) []

/-! ## enrichLogMessage -/

/-- The function literal passed to `ReplaceAllStringFunc`. -/
def replacement (equipMap : EquipMap) (mtch : Text) : Text :=
  let submatches := FindStringSubmatch mtch
  if submatches.length < 3 then mtch
  else
    let word := submatches.getD 1 []
    let id := submatches.getD 2 []
    match mapGet equipMap id with
    | some name => word ++ " \"".toList ++ name ++ "\" (ID ".toList ++ id ++ ")".toList
    | none => mtch

/-- The body of `enrichLogMessage` with the queries it sends to the database
made explicit: the result and the list of the statements passed to
`db.Query`. -/
def enrichLogMessageTraced (db : Catalog) (msg : Text) : Text × List String :=
  if msg = [] then ([], [])
  else
    match db with
    | none => (msg, ["SELECT equipment_id, title FROM equipment"])
    | some rows =>
      (ReplaceAllStringFunc msg (replacement (buildEquipMap rows)),
        ["SELECT equipment_id, title FROM equipment"])

/-- Function `enrichLogMessage` of src/main.go. -/
def enrichLogMessage (db : Catalog) (msg : Text) : Text :=
  (enrichLogMessageTraced db msg).1

/-! ## Vocabulary of the claims -/

/-- The text begins with a decimal digit. -/
def startsWithDigit : Text → Bool
  | [] => false
  | c :: _ => isDigit c

/-- The loop of `re.FindAllStringSubmatchIndex`: the successive leftmost
matches, each with the offset (in runes) at which it starts. -/
def findAllLoop : Nat → Nat → Text → List (Nat × Match)
  | 0, _, _ => []
  | fuel + 1, off, src =>
    match findMatch src with
    | none => []
    | some (a, m) =>
      (off + a, m) ::
        findAllLoop fuel (off + a + m.text.length) (src.drop (a + m.text.length))

/-- Model of `re.FindAllStringSubmatchIndex(s, -1)`: the references of a
message, in the order in which `ReplaceAllStringFunc` visits them. -/
def FindAllStringSubmatchIndex (s : Text) : List (Nat × Match) :=
  findAllLoop (s.length + 1) 0 s

/-- A small Cyrillic letter а..я. -/
def isLowerLetter (c : Char) : Bool := 0x430 ≤ c.toNat && c.toNat ≤ 0x44F

/-- A capital Cyrillic letter А..Я. -/
def isUpperLetter (c : Char) : Bool := 0x410 ≤ c.toNat && c.toNat ≤ 0x42F

/-- A stem word: the stem `оборудовани` followed by letters а..я. -/
def isStemWord (w : Text) : Bool :=
  w.take stem.length == stem && (w.drop stem.length).all isLowerLetter

/-- The text `v` is a casing variant of `w`: rune by rune the same letter,
or its capital. -/
def isCasingOf : Text → Text → Bool
  | [], [] => true
  | a :: as, b :: bs =>
    (a == b || (isUpperLetter a && a.toNat + 0x20 == b.toNat)) && isCasingOf as bs
  | _, _ => false

/-- A non-empty run of whitespace of the class `\s`. -/
def isSpaceRun (s : Text) : Bool := !s.isEmpty && s.all isSpace

/-- A non-empty string of decimal digits. -/
def isDigitRun (s : Text) : Bool := !s.isEmpty && s.all isDigit

/-- The text contains a reference: the expression matches somewhere in it. -/
def hasReference (s : Text) : Bool := (findMatch s).isSome

/-- The rune `a` is the letter `b` of а..я as the expression reads it under
`(?i)`: `b` itself, its capital, or a historic variant U+1C80..U+1C86 that
`unicode.SimpleFold` puts in the orbit of `b` (ᲀ for в, ᲁ for д, ᲂ for о,
ᲃ for с, ᲄ and ᲅ for т, ᲆ for ъ). -/
def isVariantOf (a b : Char) : Bool :=
  a == b || (isUpperLetter a && a.toNat + 0x20 == b.toNat) ||
    (a.toNat == 0x1C80 && b.toNat == 0x432) || (a.toNat == 0x1C81 && b.toNat == 0x434) ||
    (a.toNat == 0x1C82 && b.toNat == 0x43E) || (a.toNat == 0x1C83 && b.toNat == 0x441) ||
    (a.toNat == 0x1C84 && b.toNat == 0x442) || (a.toNat == 0x1C85 && b.toNat == 0x442) ||
    (a.toNat == 0x1C86 && b.toNat == 0x44A)

/-- The text `v` is `w` with every letter replaced by one of its variants
under `(?i)`: small, capital or historic. -/
def isFoldingOf : Text → Text → Bool
  | [], [] => true
  | a :: as, b :: bs => isVariantOf a b && isFoldingOf as bs
  | _, _ => false

/-- The message contains an occurrence of the pattern: a stem word `w`
written as `v` (with `rel v w`), then a non-empty whitespace run, then a
non-empty digit string. -/
def HasPattern (rel : Text → Text → Bool) (msg : Text) : Prop :=
  ∃ a w v s id b, msg = a ++ v ++ s ++ id ++ b ∧ isStemWord w = true ∧ rel v w = true ∧
    isSpaceRun s = true ∧ isDigitRun id = true

/-- Somewhere in the text a small or capital о is followed by a small or
capital б, as at the start of every stem word in any casing. -/
def hasCasedStart : Text → Bool
  | a :: b :: rest => isCasingOf [a, b] ['о', 'б'] || hasCasedStart (b :: rest)
  | _ => false

/-! ## Definitions of the proofs -/

/-- Strip the runes matching the literals `lits` under `(?i)`. -/
def stripStem : Text → Text → Option (Text × Text)
  | [], s => some ([], s)
  | _ :: _, [] => none
  | l :: ls, c :: cs =>
    if foldLit l c then (stripStem ls cs).map (fun p => (c :: p.1, p.2)) else none

/-- Deterministic form of `matchPrefix`. -/
def matchHere (s : Text) : Option Match :=
  match stripStem stem s with
  | none => none
  | some (st, r0) =>
    let r1 := r0.dropWhile foldLetter
    let r2 := r1.dropWhile isSpace
    if r1.takeWhile isSpace ≠ [] ∧ r2.takeWhile isDigit ≠ [] then
      some (Match.mk (st ++ r0.takeWhile foldLetter) (r1.takeWhile isSpace) (r2.takeWhile isDigit))
    else none

/-- State of a left-to-right reading of the expression. -/
inductive St where
  | word (lits : Text)
  | spaces
  | acc
  | fail
deriving DecidableEq

/-- One step of the reading. -/
def step : St → Char → St
  | St.word (l :: ls), c => if foldLit l c then St.word ls else St.fail
  | St.word [], c =>
    if foldLetter c then St.word [] else if isSpace c then St.spaces else St.fail
  | St.spaces, c => if isSpace c then St.spaces else if isDigit c then St.acc else St.fail
  | St.acc, _ => St.acc
  | St.fail, _ => St.fail

/-- The state reached from `q` by reading `s`. -/
def run (q : St) (s : Text) : St := s.foldl step q

/-- What must follow the stem for a match: letters, then at least one
whitespace rune, then at least one digit. -/
def tailOK (r : Text) : Prop :=
  (r.dropWhile foldLetter).takeWhile isSpace ≠ [] ∧
    ((r.dropWhile foldLetter).dropWhile isSpace).takeWhile isDigit ≠ []

/-- The text is matched in full by `оборудовани[а-я]*` under `(?i)`. -/
def IsWord (w : Text) : Prop := run (St.word stem) w = St.word []

/-- The literals are letters of the range а..я. -/
def litsOK (ls : Text) : Prop := ∀ l ∈ ls, 0x430 ≤ l.toNat ∧ l.toNat ≤ 0x44F

/-- No match of the expression starts inside `x` when `x` is followed by `y`. -/
def NoMatchIn (x y : Text) : Prop := ∀ a b, x = a ++ b → b ≠ [] → matchHere (b ++ y) = none

/-- Rendering of one match by the function literal of `enrichLogMessage`. -/
def render (d : EquipMap) (m : Match) : Text :=
  match mapGet d m.id with
  | some name => m.word ++ " \"".toList ++ name ++ "\" (ID ".toList ++ m.id ++ ")".toList
  | none => m.text

/-- The substitution of `enrichLogMessage` for a given equipment map. -/
def enrich (d : EquipMap) (s : Text) : Text := ReplaceAllStringFunc s (replacement d)

/-- Start state of the reading. -/
abbrev S0 : St := St.word stem

/-- The literals still to be read are letters of а..я. -/
def Good : St → Prop
  | St.word ls => litsOK ls
  | _ => True

/-- A rune outside the three classes of the expression. -/
def isOther (c : Char) : Bool := !foldLetter c && !isSpace c && !isDigit c

/-- Rendering of a reference whatever the directory holds for its ID. -/
def renderRef (d : EquipMap) (w s id : Text) : Text :=
  match mapGet d id with
  | some t => w ++ (" \"".toList ++ (t ++ ("\" (ID ".toList ++ (id ++ ")".toList))))
  | none => w ++ (s ++ id)

/-- The matches of a text without their offsets. -/
def allMatches (s : Text) : List Match := (FindAllStringSubmatchIndex s).map Prod.snd

/-- The small letter onto which `(?i)` folds a rune of the class `[а-я]`. -/
def lowerRune (c : Char) : Char := Char.ofNat (simpleFoldLower c)

/-! ## The backtracking matcher is deterministic on the expression -/

/-- Items of literals consume the input rune by rune, as `stripStem` does. -/
theorem matchItems_lits (lits : Text) (R : List Item) (s : Text) :
    matchItems (lits.map (fun l => Item.mk (foldLit l) Quant.one) ++ R) s =
      match stripStem lits s with
      | none => none
      | some (m, r) => (matchItems R r).map (fun ps => m.map (fun c => [c]) ++ ps) := by
  induction lits generalizing s with
  | nil => simp [stripStem]
  | cons l ls ih =>
    cases s with
    | nil => simp [matchItems, stripStem]
    | cons c cs =>
      simp only [List.map_cons, List.cons_append, matchItems, stripStem]
      by_cases h : foldLit l c = true
      · simp only [h, if_true, List.append_eq]
        rw [ih cs]
        cases stripStem ls cs with
        | none => simp
        | some p =>
          obtain ⟨m, r⟩ := p
          cases h2 : matchItems R r <;> simp [h2]
      · simp [h]

/-- When the continuation cannot start with a rune of the class, the greedy
repetition takes the whole run of the class and never gives a rune back. -/
theorem matchStar_greedy (cls : Char → Bool) (k : Text → Option (List Text))
    (hk : ∀ c cs, cls c = true → k (c :: cs) = none) (s : Text) :
    matchStar cls k s = (k (s.dropWhile cls)).map (fun r => (s.takeWhile cls, r)) := by
  induction s with
  | nil => simp [matchStar]
  | cons c cs ih =>
    by_cases h : cls c = true
    · simp only [matchStar, h, if_true, ih, List.dropWhile_cons_of_pos, List.takeWhile_cons_of_pos]
      cases hr : k (List.dropWhile cls cs) with
      | none => simp [hk c cs h]
      | some r => simp
    · simp [matchStar, h, List.dropWhile_cons_of_neg, List.takeWhile_cons_of_neg]

/-- The last repetition of the expression takes the whole run of its class. -/
theorem matchStar_last (cls : Char → Bool) (s : Text) :
    matchStar cls (fun s1 => matchItems [] s1) s = some (s.takeWhile cls, []) := by
  induction s with
  | nil => simp [matchStar, matchItems]
  | cons c cs ih =>
    by_cases h : cls c = true
    · simp [matchStar, h, ih]
    · simp [matchStar, h, matchItems]

theorem simpleFoldLower_ge (c : Char) (h : 0x430 ≤ simpleFoldLower c) : 0x410 ≤ c.toNat := by
  unfold simpleFoldLower at h
  simp only at h
  split_ifs at h <;> omega

theorem isSpace_of_foldLetter {c : Char} (h : foldLetter c = true) : isSpace c = false := by
  have h1 : 0x410 ≤ c.toNat := by
    apply simpleFoldLower_ge
    simp only [foldLetter, Bool.and_eq_true, decide_eq_true_eq] at h
    exact h.1
  simp only [isSpace, Bool.or_eq_false_iff, beq_eq_false_iff_ne, ne_eq]
  omega

theorem isDigit_of_foldLetter {c : Char} (h : foldLetter c = true) : isDigit c = false := by
  have h1 : 0x410 ≤ c.toNat := by
    apply simpleFoldLower_ge
    simp only [foldLetter, Bool.and_eq_true, decide_eq_true_eq] at h
    exact h.1
  simp only [isDigit, Bool.and_eq_false_iff, decide_eq_false_iff_not]
  omega

theorem isDigit_of_isSpace {c : Char} (h : isSpace c = true) : isDigit c = false := by
  simp only [isSpace, Bool.or_eq_true, beq_iff_eq] at h
  simp only [isDigit, Bool.and_eq_false_iff, decide_eq_false_iff_not]
  omega

theorem matchItems_star (cls : Char → Bool) (rest : List Item) (s : Text) :
    matchItems (Item.mk cls Quant.star :: rest) s =
      (matchStar cls (fun s1 => matchItems rest s1) s).map (fun p => p.1 :: p.2) := by
  simp only [matchItems]

theorem matchItems_plus_nil (cls : Char → Bool) (rest : List Item) :
    matchItems (Item.mk cls Quant.plus :: rest) [] = none := by
  rw [matchItems]

theorem matchItems_plus_cons (cls : Char → Bool) (rest : List Item) (c : Char) (cs : Text) :
    matchItems (Item.mk cls Quant.plus :: rest) (c :: cs) =
      if cls c then
        (matchStar cls (fun s1 => matchItems rest s1) cs).map (fun p => (c :: p.1) :: p.2)
      else none := by
  rw [matchItems]

theorem matchItems_digits (s : Text) :
    matchItems [Item.mk isDigit Quant.plus] s =
      if s.takeWhile isDigit ≠ [] then some [s.takeWhile isDigit] else none := by
  cases s with
  | nil => simp [matchItems_plus_nil]
  | cons c cs =>
    rw [matchItems_plus_cons, matchStar_last]
    by_cases h : isDigit c = true
    · simp [h]
    · simp [h]

theorem matchItems_spaces (s : Text) :
    matchItems [Item.mk isSpace Quant.plus, Item.mk isDigit Quant.plus] s =
      if s.takeWhile isSpace ≠ [] ∧ (s.dropWhile isSpace).takeWhile isDigit ≠ [] then
        some [s.takeWhile isSpace, (s.dropWhile isSpace).takeWhile isDigit]
      else none := by
  have hk : ∀ c cs, isSpace c = true →
      (fun s1 => matchItems [Item.mk isDigit Quant.plus] s1) (c :: cs) = none := by
    intro c cs hc
    simp [matchItems_plus_cons, isDigit_of_isSpace hc]
  cases s with
  | nil => simp [matchItems_plus_nil]
  | cons c cs =>
    rw [matchItems_plus_cons, matchStar_greedy _ _ hk]
    simp only [matchItems_digits]
    by_cases h : isSpace c = true
    · by_cases h2 : List.takeWhile isDigit (List.dropWhile isSpace cs) = []
      · simp [h, h2]
      · simp [h, h2]
    · simp [h]

theorem matchItems_tail (s : Text) :
    matchItems [Item.mk foldLetter Quant.star, Item.mk isSpace Quant.plus,
        Item.mk isDigit Quant.plus] s =
      if (s.dropWhile foldLetter).takeWhile isSpace ≠ [] ∧
          ((s.dropWhile foldLetter).dropWhile isSpace).takeWhile isDigit ≠ [] then
        some [s.takeWhile foldLetter, (s.dropWhile foldLetter).takeWhile isSpace,
          ((s.dropWhile foldLetter).dropWhile isSpace).takeWhile isDigit]
      else none := by
  have hk : ∀ c cs, foldLetter c = true →
      (fun s1 => matchItems [Item.mk isSpace Quant.plus, Item.mk isDigit Quant.plus] s1)
        (c :: cs) = none := by
    intro c cs hc
    simp [matchItems_plus_cons, isSpace_of_foldLetter hc]
  rw [matchItems_star, matchStar_greedy _ _ hk]
  simp only [matchItems_spaces]
  split_ifs <;> simp

theorem stripStem_length {lits s m r : Text} (h : stripStem lits s = some (m, r)) :
    m.length = lits.length := by
  induction lits generalizing s m r with
  | nil => simp [stripStem] at h; simp [h.1.symm]
  | cons l ls ih =>
    cases s with
    | nil => simp [stripStem] at h
    | cons c cs =>
      simp only [stripStem] at h
      split_ifs at h
      cases hs : stripStem ls cs with
      | none => simp [hs] at h
      | some p =>
        simp [hs] at h
        rw [← h.1]
        simp [ih (m := p.1) (r := p.2) hs]

theorem flatten_map_single (t : Text) : (t.map (fun c => [c])).flatten = t := by
  induction t with
  | nil => rfl
  | cons c cs ih => simp [ih]

theorem pieces_cut (A : List Text) (x y z : Text) :
    (List.take (A.length + 1) (A ++ [x, y, z])).flatten = A.flatten ++ x ∧
    ((List.drop (A.length + 1) (A ++ [x, y, z])).take 1).flatten = y ∧
    (List.drop (A.length + 1 + 1) (A ++ [x, y, z])).flatten = z := by
  have e1 : List.take (A.length + 1) A = A := List.take_of_length_le (by omega)
  have e2 : List.drop (A.length + 1) A = [] := List.drop_of_length_le (by omega)
  have e3 : List.drop (A.length + 1 + 1) A = [] := List.drop_of_length_le (by omega)
  have e4 : A.length + 1 - A.length = 1 := by omega
  have e5 : A.length + 1 + 1 - A.length = 2 := by omega
  refine ⟨?_, ?_, ?_⟩
  · simp [List.take_append_eq_append_take, e1, e4]
  · simp [List.drop_append_eq_append_drop, e2, e4]
  · simp [List.drop_append_eq_append_drop, e3, e5]

/-- The backtracking matcher and the deterministic reading of the expression
find the same match. -/
theorem matchPrefix_eq_matchHere (s : Text) : matchPrefix s = matchHere s := by
  unfold matchPrefix matchHere re wordItems
  rw [List.append_assoc, matchItems_lits]
  cases hs : stripStem stem s with
  | none => simp
  | some p =>
    obtain ⟨st, r0⟩ := p
    have hl := stripStem_length hs
    have hlen : (List.map (fun l => Item.mk (foldLit l) Quant.one) stem ++
        [Item.mk foldLetter Quant.star]).length = (st.map (fun c => [c])).length + 1 := by
      simp [hl]
    simp only [List.singleton_append, matchItems_tail, hlen]
    split_ifs with h
    · obtain ⟨h1, h2, h3⟩ := pieces_cut (st.map (fun c => [c])) (r0.takeWhile foldLetter)
        ((r0.dropWhile foldLetter).takeWhile isSpace)
        (((r0.dropWhile foldLetter).dropWhile isSpace).takeWhile isDigit)
      simp only [Option.map_some', h1, h2, h3, flatten_map_single]
    · simp

/-! ## A left-to-right reading of the expression -/

theorem run_nil (q : St) : run q [] = q := rfl

theorem run_cons (q : St) (c : Char) (cs : Text) : run q (c :: cs) = run (step q c) cs := rfl

theorem run_append (q : St) (x y : Text) : run q (x ++ y) = run (run q x) y := by
  simp [run, List.foldl_append]

theorem run_acc (s : Text) : run St.acc s = St.acc := by
  induction s with
  | nil => rfl
  | cons c cs ih => rw [run_cons]; exact ih

theorem run_fail (s : Text) : run St.fail s = St.fail := by
  induction s with
  | nil => rfl
  | cons c cs ih => rw [run_cons]; exact ih

theorem run_spaces_iff (s : Text) :
    run St.spaces s = St.acc ↔ (s.dropWhile isSpace).takeWhile isDigit ≠ [] := by
  induction s with
  | nil => simp [run_nil]
  | cons c cs ih =>
    rw [run_cons]
    by_cases h1 : isSpace c = true
    · simp [step, h1, ih]
    · by_cases h2 : isDigit c = true
      · simp [step, h1, h2, run_acc]
      · simp [step, h1, h2, run_fail]

theorem run_letters_iff (s : Text) : run (St.word []) s = St.acc ↔ tailOK s := by
  induction s with
  | nil => simp [run_nil, tailOK]
  | cons c cs ih =>
    rw [run_cons]
    by_cases h1 : foldLetter c = true
    · simp [step, h1, ih, tailOK]
    · by_cases h2 : isSpace c = true
      · simp [step, h1, h2, tailOK, run_spaces_iff]
      · simp [step, h1, h2, tailOK, run_fail]

theorem run_word_iff (lits s : Text) :
    run (St.word lits) s = St.acc ↔ ∃ m r, stripStem lits s = some (m, r) ∧ tailOK r := by
  induction lits generalizing s with
  | nil =>
    simp only [run_letters_iff, stripStem, Option.some.injEq, Prod.mk.injEq]
    constructor
    · intro h
      exact ⟨[], s, ⟨rfl, rfl⟩, h⟩
    · rintro ⟨m, r, ⟨_, rfl⟩, h⟩
      exact h
  | cons l ls ih =>
    cases s with
    | nil => simp [run_nil, stripStem]
    | cons c cs =>
      rw [run_cons]
      by_cases h : foldLit l c = true
      · simp only [step, h, if_true, ih, stripStem]
        constructor
        · rintro ⟨m, r, h1, h2⟩
          exact ⟨c :: m, r, by simp [h1], h2⟩
        · rintro ⟨m, r, h1, h2⟩
          cases hs : stripStem ls cs with
          | none => simp [hs] at h1
          | some p =>
            simp [hs] at h1
            exact ⟨p.1, p.2, rfl, h1.2 ▸ h2⟩
      · simp [step, h, run_fail, stripStem]

/-- A match starts at the beginning of a text exactly when the reading
reaches the accepting state. -/
theorem matchHere_isSome_iff (s : Text) :
    (matchHere s).isSome = true ↔ run (St.word stem) s = St.acc := by
  rw [run_word_iff]
  unfold matchHere
  cases hs : stripStem stem s with
  | none => simp
  | some p =>
    obtain ⟨st, r0⟩ := p
    simp only [Option.some.injEq, Prod.mk.injEq, tailOK]
    constructor
    · intro h
      split_ifs at h with h1
      · exact ⟨st, r0, ⟨rfl, rfl⟩, h1⟩
      · simp at h
    · rintro ⟨m, r, ⟨rfl, rfl⟩, h1⟩
      simp [h1]

/-! ## Words and runs of a class -/

theorem litsOK_stem : litsOK stem := by
  unfold litsOK stem
  decide

theorem foldLetter_of_foldLit {l c : Char} (hl : 0x430 ≤ l.toNat ∧ l.toNat ≤ 0x44F)
    (h : foldLit l c = true) : foldLetter c = true := by
  simp only [foldLit, beq_iff_eq] at h
  simp only [foldLetter, Bool.and_eq_true, decide_eq_true_eq, h]
  exact hl

theorem takeWhile_append_stop (p : Char → Bool) (a b : Text) (ha : ∀ c ∈ a, p c = true)
    (hb : ∀ c bs, b = c :: bs → p c = false) :
    (a ++ b).takeWhile p = a ∧ (a ++ b).dropWhile p = b := by
  induction a with
  | nil =>
    cases b with
    | nil => simp
    | cons c bs => simp [hb c bs rfl]
  | cons x xs ih =>
    have hx : p x = true := ha x (List.mem_cons_self _ _)
    have := ih (fun c hc => ha c (List.mem_cons_of_mem _ hc))
    simp [hx, this]

theorem takeWhile_all (p : Char → Bool) (s : Text) : ∀ c ∈ s.takeWhile p, p c = true := by
  intro c hc
  exact (List.mem_takeWhile_imp hc)

theorem dropWhile_head (p : Char → Bool) (s : Text) :
    ∀ c bs, s.dropWhile p = c :: bs → p c = false := by
  induction s with
  | nil => simp
  | cons x xs ih =>
    intro c bs h
    by_cases hx : p x = true
    · rw [List.dropWhile_cons_of_pos hx] at h
      exact ih c bs h
    · rw [List.dropWhile_cons_of_neg hx] at h
      simp only [List.cons.injEq] at h
      rw [← h.1]
      simpa using hx

theorem run_letters_all {w : Text} (h : ∀ c ∈ w, foldLetter c = true) :
    run (St.word []) w = St.word [] := by
  induction w with
  | nil => rfl
  | cons c cs ih =>
    rw [run_cons]
    have hc : foldLetter c = true := h c (List.mem_cons_self _ _)
    simp only [step, hc, if_true]
    exact ih (fun x hx => h x (List.mem_cons_of_mem _ hx))

theorem stripStem_eq {lits s m r : Text} (h : stripStem lits s = some (m, r)) : s = m ++ r := by
  induction lits generalizing s m r with
  | nil => simp [stripStem] at h; simp [h.1.symm, h.2]
  | cons l ls ih =>
    cases s with
    | nil => simp [stripStem] at h
    | cons c cs =>
      simp only [stripStem] at h
      split_ifs at h
      cases hs : stripStem ls cs with
      | none => simp [hs] at h
      | some p =>
        simp [hs] at h
        rw [← h.1, ← h.2]
        simp [ih (m := p.1) (r := p.2) hs]

theorem stripStem_append {lits s m r : Text} (X : Text) (h : stripStem lits s = some (m, r)) :
    stripStem lits (s ++ X) = some (m, r ++ X) := by
  induction lits generalizing s m r with
  | nil => simp [stripStem] at h; simp [stripStem, h.1.symm, h.2]
  | cons l ls ih =>
    cases s with
    | nil => simp [stripStem] at h
    | cons c cs =>
      simp only [stripStem] at h
      split_ifs at h with hc
      cases hs : stripStem ls cs with
      | none => simp [hs] at h
      | some p =>
        obtain ⟨a, b⟩ := p
        simp [hs] at h
        rw [← h.1, ← h.2]
        simp only [List.cons_append, stripStem, hc, if_true, List.append_eq]
        rw [ih hs]
        rfl

theorem stripStem_run {lits s m r : Text} (h : stripStem lits s = some (m, r)) :
    run (St.word lits) m = St.word [] := by
  induction lits generalizing s m r with
  | nil =>
    simp only [stripStem, Option.some.injEq, Prod.mk.injEq] at h
    rw [← h.1]
    rfl
  | cons l ls ih =>
    cases s with
    | nil => simp [stripStem] at h
    | cons c cs =>
      simp only [stripStem] at h
      split_ifs at h with hc
      cases hs : stripStem ls cs with
      | none => simp [hs] at h
      | some p =>
        simp [hs] at h
        rw [← h.1, run_cons]
        simp only [step, hc, if_true]
        exact ih (m := p.1) (r := p.2) hs

theorem run_spaces_ne_word (s : Text) (ls : Text) : run St.spaces s ≠ St.word ls := by
  induction s with
  | nil => simp [run_nil]
  | cons c cs ih =>
    rw [run_cons]
    by_cases h1 : isSpace c = true
    · simpa [step, h1] using ih
    · by_cases h2 : isDigit c = true
      · simp [step, h1, h2, run_acc]
      · simp [step, h1, h2, run_fail]

theorem word_split {lits w : Text} (h : run (St.word lits) w = St.word []) :
    ∃ st l, stripStem lits w = some (st, l) ∧ (∀ c ∈ l, foldLetter c = true) := by
  induction lits generalizing w with
  | nil =>
    refine ⟨[], w, rfl, ?_⟩
    induction w with
    | nil => simp
    | cons c cs ih =>
      rw [run_cons] at h
      by_cases h1 : foldLetter c = true
      · simp only [step, h1, if_true] at h
        intro x hx
        rcases List.mem_cons.1 hx with rfl | hx
        · exact h1
        · exact ih h x hx
      · by_cases h2 : isSpace c = true
        · simp only [step, h1, h2, if_true, if_false] at h
          exact absurd h (run_spaces_ne_word cs [])
        · simp [step, h1, h2, run_fail] at h
  | cons l ls ih =>
    cases w with
    | nil => simp [run_nil] at h
    | cons c cs =>
      rw [run_cons] at h
      by_cases hc : foldLit l c = true
      · simp only [step, hc, if_true] at h
        obtain ⟨st, l', h1, h2⟩ := ih h
        exact ⟨c :: st, l', by simp [stripStem, hc, h1], h2⟩
      · simp [step, hc, run_fail] at h

/-! ## Shape of a match -/

theorem foldLetter_of_isSpace {c : Char} (h : isSpace c = true) : foldLetter c = false := by
  cases hf : foldLetter c with
  | false => rfl
  | true => rw [isSpace_of_foldLetter hf] at h; cases h

theorem foldLetter_of_isDigit {c : Char} (h : isDigit c = true) : foldLetter c = false := by
  cases hf : foldLetter c with
  | false => rfl
  | true => rw [isDigit_of_foldLetter hf] at h; cases h

theorem isSpace_of_isDigit {c : Char} (h : isDigit c = true) : isSpace c = false := by
  cases hf : isSpace c with
  | false => rfl
  | true => rw [isDigit_of_isSpace hf] at h; cases h

theorem head_append_of_ne_nil {p : Char → Bool} {a : Text} (b : Text) {v : Bool} (ha : a ≠ [])
    (h : ∀ c ∈ a, p c = v) : ∀ c bs, a ++ b = c :: bs → p c = v := by
  intro c bs e
  cases a with
  | nil => exact absurd rfl ha
  | cons x xs =>
    simp only [List.cons_append, List.cons.injEq] at e
    rw [← e.1]
    exact h x (List.mem_cons_self _ _)

theorem startsWithDigit_false {q : Text} (h : startsWithDigit q = false) :
    ∀ c bs, q = c :: bs → isDigit c = false := by
  intro c bs e
  subst e
  exact h

/-- Construction of a match from its shape. -/
theorem matchHere_of_shape {w sp id q : Text} (hw : IsWord w)
    (hsp : sp ≠ []) (hsp2 : ∀ c ∈ sp, isSpace c = true)
    (hid : id ≠ []) (hid2 : ∀ c ∈ id, isDigit c = true)
    (hq : startsWithDigit q = false) :
    matchHere (w ++ (sp ++ (id ++ q))) = some (Match.mk w sp id) := by
  obtain ⟨st, l, h1, h2⟩ := word_split hw
  have hweq : w = st ++ l := stripStem_eq h1
  have e1 := takeWhile_append_stop foldLetter l (sp ++ (id ++ q)) h2
    (head_append_of_ne_nil _ hsp (fun c hc => foldLetter_of_isSpace (hsp2 c hc)))
  have e2 := takeWhile_append_stop isSpace sp (id ++ q) hsp2
    (head_append_of_ne_nil _ hid (fun c hc => isSpace_of_isDigit (hid2 c hc)))
  have e3 := takeWhile_append_stop isDigit id q hid2 (startsWithDigit_false hq)
  unfold matchHere
  rw [stripStem_append _ h1]
  simp only [e1.1, e1.2, e2.1, e2.2, e3.1]
  simp [hsp, hid, hweq]

/-- Shape of a match. -/
theorem matchHere_shape {s : Text} {m : Match} (h : matchHere s = some m) :
    IsWord m.word ∧ m.space ≠ [] ∧ (∀ c ∈ m.space, isSpace c = true) ∧
    m.id ≠ [] ∧ (∀ c ∈ m.id, isDigit c = true) ∧
    ∃ q, s = m.word ++ (m.space ++ (m.id ++ q)) ∧ startsWithDigit q = false := by
  unfold matchHere at h
  cases hs : stripStem stem s with
  | none => simp [hs] at h
  | some p =>
    obtain ⟨st, r0⟩ := p
    simp only [hs] at h
    split_ifs at h with hc
    simp only [Option.some.injEq] at h
    subst h
    refine ⟨?_, hc.1, takeWhile_all _ _, hc.2, takeWhile_all _ _, ?_⟩
    · show run (St.word stem) (st ++ r0.takeWhile foldLetter) = St.word []
      rw [run_append, stripStem_run hs]
      exact run_letters_all (takeWhile_all _ _)
    · refine ⟨((r0.dropWhile foldLetter).dropWhile isSpace).dropWhile isDigit, ?_, ?_⟩
      · simp only [List.append_assoc, List.takeWhile_append_dropWhile]
        exact stripStem_eq hs
      · cases hq : ((r0.dropWhile foldLetter).dropWhile isSpace).dropWhile isDigit with
        | nil => rfl
        | cons c bs => exact dropWhile_head _ _ c bs hq

theorem match_text_ne_nil {s : Text} {m : Match} (h : matchHere s = some m) : m.text ≠ [] := by
  obtain ⟨_, _, _, h4, _⟩ := matchHere_shape h
  simp [Match.text, h4]

theorem matchHere_text {s : Text} {m : Match} (h : matchHere s = some m) :
    ∃ q, s = m.text ++ q ∧ startsWithDigit q = false := by
  obtain ⟨_, _, _, _, _, q, h6, h7⟩ := matchHere_shape h
  exact ⟨q, by simp [Match.text, h6], h7⟩

/-- The match found in the matched text alone is the same match. -/
theorem matchHere_self {s : Text} {m : Match} (h : matchHere s = some m) :
    matchHere m.text = some m := by
  obtain ⟨h1, h2, h3, h4, h5, _⟩ := matchHere_shape h
  have := matchHere_of_shape (q := []) h1 h2 h3 h4 h5 rfl
  simpa [Match.text] using this

/-- A match followed by any text that does not begin with a digit. -/
theorem matchHere_text_append {s : Text} {m : Match} (h : matchHere s = some m) (q : Text)
    (hq : startsWithDigit q = false) : matchHere (m.text ++ q) = some m := by
  obtain ⟨h1, h2, h3, h4, h5, _⟩ := matchHere_shape h
  have := matchHere_of_shape h1 h2 h3 h4 h5 hq
  simpa [Match.text] using this

/-! ## The scan of ReplaceAllStringFunc -/

theorem matchHere_nil : matchHere [] = none := by
  unfold matchHere stem
  rfl

theorem NoMatchIn_nil (y : Text) : NoMatchIn [] y := by
  intro a b h hb
  have : b = [] := by
    have := congrArg List.length h
    simp at this
    exact List.length_eq_zero.1 (by omega)
  exact absurd this hb

theorem NoMatchIn_cons {c : Char} {cs y : Text} :
    NoMatchIn (c :: cs) y ↔ matchHere (c :: (cs ++ y)) = none ∧ NoMatchIn cs y := by
  constructor
  · intro h
    refine ⟨h [] (c :: cs) rfl (by simp), ?_⟩
    intro a b e hb
    exact h (c :: a) b (by simp [e]) hb
  · rintro ⟨h1, h2⟩ a b e hb
    cases a with
    | nil =>
      simp only [List.nil_append] at e
      rw [← e]
      exact h1
    | cons x xs =>
      simp only [List.cons_append, List.cons.injEq] at e
      exact h2 xs b e.2 hb

theorem NoMatchIn_append {x1 x2 y : Text} :
    NoMatchIn (x1 ++ x2) y ↔ NoMatchIn x1 (x2 ++ y) ∧ NoMatchIn x2 y := by
  induction x1 with
  | nil => simp [NoMatchIn_nil]
  | cons c cs ih =>
    simp only [List.cons_append, NoMatchIn_cons, ih, List.append_assoc]
    tauto

theorem findMatch_none_iff (s : Text) : findMatch s = none ↔ NoMatchIn s [] := by
  induction s with
  | nil => simp [findMatch, NoMatchIn_nil]
  | cons c cs ih =>
    rw [NoMatchIn_cons, ← ih, findMatch, matchPrefix_eq_matchHere]
    cases h : matchHere (c :: cs) with
    | none => simp [h]
    | some m => simp [h]

theorem findMatch_here {s : Text} {m : Match} (h : matchHere s = some m) :
    findMatch s = some (0, m) := by
  cases s with
  | nil => rw [matchHere_nil] at h; cases h
  | cons c cs => rw [findMatch, matchPrefix_eq_matchHere, h]

theorem findMatch_append {x y : Text} (h : NoMatchIn x y) :
    findMatch (x ++ y) = (findMatch y).map (fun r => (x.length + r.1, r.2)) := by
  induction x with
  | nil =>
    simp only [List.nil_append, List.length_nil, Nat.zero_add]
    cases findMatch y <;> rfl
  | cons c cs ih =>
    rw [NoMatchIn_cons] at h
    rw [List.cons_append, findMatch, matchPrefix_eq_matchHere, h.1, ih h.2]
    cases findMatch y with
    | none => simp
    | some r => simp; omega

/-- The leftmost match splits the text: nothing matches before it, and it is
followed by the rest of the text. -/
theorem findMatch_some {s : Text} {n : Nat} {m : Match} (h : findMatch s = some (n, m)) :
    ∃ a q, s = a ++ (m.text ++ q) ∧ a.length = n ∧ matchHere (m.text ++ q) = some m ∧
      NoMatchIn a (m.text ++ q) := by
  induction s generalizing n with
  | nil => simp [findMatch] at h
  | cons c cs ih =>
    rw [findMatch, matchPrefix_eq_matchHere] at h
    cases hm : matchHere (c :: cs) with
    | some m1 =>
      simp only [hm, Option.some.injEq, Prod.mk.injEq] at h
      obtain ⟨rfl, rfl⟩ := h
      obtain ⟨q, hq, _⟩ := matchHere_text hm
      exact ⟨[], q, by simpa using hq, rfl, hq ▸ hm, NoMatchIn_nil _⟩
    | none =>
      simp only [hm] at h
      cases hf : findMatch cs with
      | none => simp [hf] at h
      | some r =>
        obtain ⟨n1, m1⟩ := r
        simp only [hf, Option.map_some', Option.some.injEq, Prod.mk.injEq] at h
        obtain ⟨rfl, rfl⟩ := h
        obtain ⟨a, q, e, hl, hmm, hno⟩ := ih hf
        refine ⟨c :: a, q, by simp [e], by simp [hl], hmm, ?_⟩
        rw [NoMatchIn_cons, ← e]
        exact ⟨hm, hno⟩

/-- On a matched text the function literal finds the captures of that match. -/
theorem replacement_eq (d : EquipMap) {s : Text} {m : Match} (h : matchHere s = some m) :
    replacement d m.text = render d m := by
  unfold replacement FindStringSubmatch
  rw [findMatch_here (matchHere_self h)]
  show (if 3 < 3 then m.text else render d m) = render d m
  rw [if_neg (by decide)]

/-- The loop of `ReplaceAllStringFunc` does not depend on the fuel once it
exceeds the length of the text. -/
theorem replaceLoop_fuel (repl : Text → Text) (f1 f2 : Nat) (s : Text)
    (h1 : s.length < f1) (h2 : s.length < f2) :
    replaceLoop repl f1 s = replaceLoop repl f2 s := by
  induction f1 generalizing f2 s with
  | zero => omega
  | succ k ih =>
    cases f2 with
    | zero => omega
    | succ j =>
      rw [replaceLoop, replaceLoop]
      cases hf : findMatch s with
      | none => rfl
      | some r =>
        obtain ⟨n, m⟩ := r
        obtain ⟨a, q, e, hl, hm, _⟩ := findMatch_some hf
        have hne := match_text_ne_nil hm
        have hlen : 0 < m.text.length := List.length_pos.2 hne
        have hs : s.length = a.length + (m.text.length + q.length) := by
          rw [e]; simp
        simp only
        rw [ih j (s.drop (n + m.text.length)) (by simp; omega) (by simp; omega)]

/-- Without a match the text is returned as it is. -/
theorem enrich_none (d : EquipMap) {s : Text} (h : findMatch s = none) : enrich d s = s := by
  unfold enrich ReplaceAllStringFunc
  rw [replaceLoop, h]

/-- One round of the loop: the text before the leftmost match is copied, the
match is rendered, the rest is enriched. -/
theorem enrich_match (d : EquipMap) {a q : Text} {m : Match}
    (hno : NoMatchIn a (m.text ++ q)) (hm : matchHere (m.text ++ q) = some m) :
    enrich d (a ++ (m.text ++ q)) = a ++ (render d m ++ enrich d q) := by
  have hf : findMatch (a ++ (m.text ++ q)) = some (a.length, m) := by
    rw [findMatch_append hno, findMatch_here hm]
    rfl
  have hlen : 0 < m.text.length := List.length_pos.2 (match_text_ne_nil hm)
  unfold enrich ReplaceAllStringFunc
  rw [replaceLoop, hf]
  simp only
  have e1 : List.drop (a.length + m.text.length) (a ++ (m.text ++ q)) = q := by
    rw [← List.append_assoc, ← List.length_append]
    exact List.drop_left _ _
  rw [e1, List.take_left, replacement_eq d hm, List.append_assoc]
  rw [replaceLoop_fuel _ _ (q.length + 1) q (by simp; omega) (by omega)]

/-- A text in which no match starts is copied. -/
theorem enrich_skip (d : EquipMap) {x y : Text} (h : NoMatchIn x y) :
    enrich d (x ++ y) = x ++ enrich d y := by
  cases hf : findMatch y with
  | none =>
    have : findMatch (x ++ y) = none := by rw [findMatch_append h, hf]; rfl
    rw [enrich_none d this, enrich_none d hf]
  | some r =>
    obtain ⟨n, m⟩ := r
    obtain ⟨a, q, e, _, hm, hno⟩ := findMatch_some hf
    have h2 : NoMatchIn (x ++ a) (m.text ++ q) := by
      rw [NoMatchIn_append, ← e]
      exact ⟨h, hno⟩
    rw [e, ← List.append_assoc, enrich_match d h2 hm, enrich_match d hno hm, List.append_assoc]

/-- Induction along the matches that the scan of a text finds. -/
theorem scan_induction {P : Text → Prop} (h0 : ∀ s, findMatch s = none → P s)
    (h1 : ∀ a m q, NoMatchIn a (Match.text m ++ q) → matchHere (Match.text m ++ q) = some m →
      P q → P (a ++ (Match.text m ++ q))) : ∀ s, P s := by
  have key : ∀ n (s : Text), s.length ≤ n → P s := by
    intro n
    induction n with
    | zero =>
      intro s hs
      have : s = [] := List.length_eq_zero.1 (by omega)
      subst this
      exact h0 [] rfl
    | succ k ih =>
      intro s hs
      cases hf : findMatch s with
      | none => exact h0 s hf
      | some r =>
        obtain ⟨j, m⟩ := r
        obtain ⟨a, q, e, _, hm, hno⟩ := findMatch_some hf
        have hlen : 0 < m.text.length := List.length_pos.2 (match_text_ne_nil hm)
        rw [e]
        apply h1 a m q hno hm
        apply ih q
        rw [e] at hs
        simp at hs
        omega
  intro s
  exact key s.length s (le_refl _)

/-! ## Steps of the reading -/

theorem good_S0 : Good S0 := litsOK_stem

theorem good_step {q : St} (c : Char) (h : Good q) : Good (step q c) := by
  cases q with
  | word ls =>
    cases ls with
    | nil =>
      simp only [step]
      split_ifs <;> simp [Good, litsOK]
    | cons l ls =>
      simp only [step]
      split_ifs
      · exact fun x hx => h x (List.mem_cons_of_mem _ hx)
      · trivial
  | spaces =>
    simp only [step]
    split_ifs <;> trivial
  | acc => trivial
  | fail => trivial

theorem good_run {q : St} (s : Text) (h : Good q) : Good (run q s) := by
  induction s generalizing q with
  | nil => exact h
  | cons c cs ih => rw [run_cons]; exact ih (good_step c h)

theorem matchHere_none_iff (s : Text) : matchHere s = none ↔ run S0 s ≠ St.acc := by
  rw [ne_eq, ← matchHere_isSome_iff]
  cases matchHere s <;> simp

theorem matchHere_ne_none_iff (s : Text) : matchHere s ≠ none ↔ run S0 s = St.acc := by
  rw [ne_eq, ← matchHere_isSome_iff]
  cases matchHere s <;> simp

theorem step_word_cons_of_not_letter {l : Char} {ls : Text} {c : Char}
    (h : litsOK (l :: ls)) (hc : foldLetter c = false) : step (St.word (l :: ls)) c = St.fail := by
  have : foldLit l c = false := by
    cases hf : foldLit l c with
    | false => rfl
    | true =>
      rw [foldLetter_of_foldLit (h l (List.mem_cons_self _ _)) hf] at hc
      cases hc
  simp [step, this]

theorem step_digit {q : St} {c : Char} (hq : Good q) (hc : isDigit c = true) :
    step q c = St.acc ∨ step q c = St.fail := by
  have h1 := foldLetter_of_isDigit hc
  have h2 := isSpace_of_isDigit hc
  cases q with
  | word ls =>
    cases ls with
    | nil => simp [step, h1, h2]
    | cons l ls => right; exact step_word_cons_of_not_letter hq h1
  | spaces => simp [step, h2, hc]
  | acc => left; rfl
  | fail => right; rfl

theorem step_other {q : St} {c : Char} (hq : Good q) (hc : isOther c = true)
    (hne : q ≠ St.acc) : step q c = St.fail := by
  simp only [isOther, Bool.and_eq_true, Bool.not_eq_true', Bool.not_eq_eq_eq_not] at hc
  obtain ⟨⟨h1, h2⟩, h3⟩ := hc
  cases q with
  | word ls =>
    cases ls with
    | nil => simp [step, h1, h2]
    | cons l ls => exact step_word_cons_of_not_letter hq h1
  | spaces => simp [step, h2, h3]
  | acc => exact absurd rfl hne
  | fail => rfl

theorem step_letter {q : St} {c : Char} (hc : foldLetter c = true) :
    step q c ≠ St.spaces ∧ (q ≠ St.acc → step q c ≠ St.acc) := by
  have h2 := isSpace_of_foldLetter hc
  have h3 := isDigit_of_foldLetter hc
  cases q with
  | word ls =>
    cases ls with
    | nil => simp [step, hc]
    | cons l ls =>
      simp only [step]
      split_ifs <;> simp
  | spaces => simp [step, h2, h3]
  | acc => simp [step]
  | fail => simp [step]

theorem step_space {q : St} {c : Char} (hq : Good q) (hc : isSpace c = true)
    (h1 : q ≠ St.acc) (h2 : q ≠ St.word []) :
    step q c = St.spaces ∨ step q c = St.fail := by
  have hl := foldLetter_of_isSpace hc
  cases q with
  | word ls =>
    cases ls with
    | nil => exact absurd rfl h2
    | cons l ls => right; exact step_word_cons_of_not_letter hq hl
  | spaces => simp [step, hc]
  | acc => exact absurd rfl h1
  | fail => right; rfl

/-- Reading letters never reaches the accepting state. -/
theorem run_letters_ne_acc {q : St} {w : Text} (hw : ∀ c ∈ w, foldLetter c = true)
    (hq : q ≠ St.acc) : run q w ≠ St.acc := by
  induction w generalizing q with
  | nil => exact hq
  | cons c cs ih =>
    rw [run_cons]
    exact ih (fun x hx => hw x (List.mem_cons_of_mem _ hx))
      ((step_letter (hw c (List.mem_cons_self _ _))).2 hq)

/-- After a non-empty run of letters the reading is not inside `\s+`. -/
theorem run_letters_ne_spaces {q : St} {w : Text} (hw : ∀ c ∈ w, foldLetter c = true)
    (hne : w ≠ []) : run q w ≠ St.spaces := by
  induction w generalizing q with
  | nil => exact absurd rfl hne
  | cons c cs ih =>
    rw [run_cons]
    cases cs with
    | nil => exact (step_letter (hw c (List.mem_cons_self _ _))).1
    | cons d ds =>
      exact ih (fun x hx => hw x (List.mem_cons_of_mem _ hx)) (by simp)

/-- Extension: a match stays a match when text is appended. -/
theorem run_acc_append {q : St} {x : Text} (y : Text) (h : run q x = St.acc) :
    run q (x ++ y) = St.acc := by
  rw [run_append, h, run_acc]

/-- A text that ends with a digit decides the reading. -/
theorem run_digit_end {q : St} (hq : Good q) (x : Text) {c : Char} (hc : isDigit c = true)
    (y : Text) : run q (x ++ c :: y) = run q (x ++ [c]) := by
  rw [run_append, run_append, run_cons, run_cons, run_nil]
  rcases step_digit (good_run x hq) hc with h | h
  · rw [h, run_acc]
  · rw [h, run_fail]

/-- A rune outside the classes ends the reading. -/
theorem run_other {q : St} (hq : Good q) (x : Text) {c : Char} (hc : isOther c = true)
    (y : Text) : run q (x ++ c :: y) = St.acc ↔ run q x = St.acc := by
  rw [run_append, run_cons]
  constructor
  · intro h
    by_contra hne
    rw [step_other (good_run x hq) hc hne, run_fail] at h
    cases h
  · intro h
    rw [h]
    exact run_acc _

/-- A whitespace rune followed by a rune outside the classes ends the
reading, unless it is inside the letters. -/
theorem run_space_other {q : St} (hq : Good q) {c1 c2 : Char} (h1 : isSpace c1 = true)
    (h2 : isOther c2 = true) (y : Text) (hne : q ≠ St.acc) :
    run q (c1 :: c2 :: y) ≠ St.acc := by
  rw [run_cons, run_cons]
  have key : step (step q c1) c2 = St.fail := by
    by_cases hw : q = St.word []
    · subst hw
      have hl := foldLetter_of_isSpace h1
      have : step (St.word []) c1 = St.spaces := by simp [step, hl, h1]
      rw [this]
      exact step_other trivial h2 (by simp)
    · rcases step_space hq h1 hne hw with h | h
      · rw [h]; exact step_other trivial h2 (by simp)
      · rw [h]; rfl
  rw [key, run_fail]
  simp

theorem stem_head : stem = 'о' :: "борудовани".toList := by
  unfold stem
  rfl

/-- No match starts at a rune that does not fold onto the first letter of
the stem. -/
theorem matchHere_cons_none {c : Char} (h : foldLit 'о' c = false) (y : Text) :
    matchHere (c :: y) = none := by
  rw [matchHere_none_iff, run_cons]
  have : step S0 c = St.fail := by
    show step (St.word stem) c = St.fail
    rw [stem_head]
    simp [step, h]
  rw [this, run_fail]
  simp

theorem NoMatchIn_of_no_start {x : Text} (h : ∀ c ∈ x, foldLit 'о' c = false) (y : Text) :
    NoMatchIn x y := by
  induction x with
  | nil => exact NoMatchIn_nil y
  | cons c cs ih =>
    rw [NoMatchIn_cons]
    exact ⟨matchHere_cons_none (h c (List.mem_cons_self _ _)) _,
      ih (fun x hx => h x (List.mem_cons_of_mem _ hx))⟩

theorem foldLit_of_not_letter {c : Char} (l : Char) (hl : 0x430 ≤ l.toNat ∧ l.toNat ≤ 0x44F)
    (h : foldLetter c = false) : foldLit l c = false := by
  cases hf : foldLit l c with
  | false => rfl
  | true => rw [foldLetter_of_foldLit hl hf] at h; cases h

/-! ## One reference between texts without references -/

theorem stripStem_letters {lits s m r : Text} (hl : litsOK lits)
    (h : stripStem lits s = some (m, r)) : ∀ c ∈ m, foldLetter c = true := by
  induction lits generalizing s m r with
  | nil =>
    simp only [stripStem, Option.some.injEq, Prod.mk.injEq] at h
    rw [← h.1]
    simp
  | cons l ls ih =>
    cases s with
    | nil => simp [stripStem] at h
    | cons c cs =>
      simp only [stripStem] at h
      split_ifs at h with hc
      cases hs : stripStem ls cs with
      | none => simp [hs] at h
      | some p =>
        obtain ⟨a, b⟩ := p
        simp [hs] at h
        rw [← h.1]
        intro x hx
        rcases List.mem_cons.1 hx with rfl | hx
        · exact foldLetter_of_foldLit (hl l (List.mem_cons_self _ _)) hc
        · exact ih (fun y hy => hl y (List.mem_cons_of_mem _ hy)) hs x hx

theorem isWord_letters {w : Text} (h : IsWord w) : ∀ c ∈ w, foldLetter c = true := by
  obtain ⟨st, l, h1, h2⟩ := word_split h
  rw [stripStem_eq h1]
  intro c hc
  rcases List.mem_append.1 hc with hc | hc
  · exact stripStem_letters litsOK_stem h1 c hc
  · exact h2 c hc

theorem isWord_ne_nil {w : Text} (h : IsWord w) : w ≠ [] := by
  intro e
  subst e
  have : run (St.word stem) [] = St.word stem := rfl
  rw [IsWord, this, stem_head] at h
  cases h

/-- The first position at or before the end of `x` where a match starts
when a match starts right behind `x`. -/
theorem first_match_split (x : Text) {y : Text} (hy : matchHere y ≠ none) :
    ∃ a b m, x = a ++ b ∧ NoMatchIn a (b ++ y) ∧ matchHere (b ++ y) = some m := by
  induction x with
  | nil =>
    cases h : matchHere y with
    | none => exact absurd h hy
    | some m => exact ⟨[], [], m, rfl, NoMatchIn_nil _, h⟩
  | cons c cs ih =>
    cases h : matchHere (c :: cs ++ y) with
    | some m => exact ⟨[], c :: cs, m, rfl, NoMatchIn_nil _, h⟩
    | none =>
      obtain ⟨a, b, m, e, h1, h2⟩ := ih
      refine ⟨c :: a, b, m, by simp [e], ?_, h2⟩
      rw [NoMatchIn_cons, ← List.append_assoc, ← e]
      exact ⟨h, h1⟩

theorem matchHere_suffix_none {p a b : Text} (hp : findMatch p = none) (e : p = a ++ b) :
    run S0 b ≠ St.acc := by
  cases b with
  | nil =>
    show St.word stem ≠ St.acc
    simp
  | cons c cs =>
    rw [findMatch_none_iff] at hp
    have := hp a (c :: cs) e (by simp)
    rw [List.append_nil] at this
    exact (matchHere_none_iff _).1 this

/-- A word that is reached by a match starting before it is part of the
word of that match. -/
theorem word_extend {b w s r : Text} (hb : run S0 b ≠ St.acc) (hw : IsWord w)
    (hs : s ≠ []) (hs2 : ∀ c ∈ s, isSpace c = true)
    (h : run S0 (b ++ (w ++ (s ++ r))) = St.acc) : IsWord (b ++ w) := by
  rw [← List.append_assoc, run_append] at h
  have hg : Good (run S0 (b ++ w)) := good_run _ good_S0
  have h1 : run S0 (b ++ w) ≠ St.acc := by
    rw [run_append]
    exact run_letters_ne_acc (isWord_letters hw) hb
  have h2 : run S0 (b ++ w) ≠ St.spaces := by
    rw [run_append]
    exact run_letters_ne_spaces (isWord_letters hw) (isWord_ne_nil hw)
  cases s with
  | nil => exact absurd rfl hs
  | cons c cs =>
    have hc : isSpace c = true := hs2 c (List.mem_cons_self _ _)
    rw [List.cons_append, run_cons] at h
    show run (St.word stem) (b ++ w) = St.word []
    change run (St.word stem) (b ++ w) ≠ St.acc at h1
    change run (St.word stem) (b ++ w) ≠ St.spaces at h2
    change Good (run (St.word stem) (b ++ w)) at hg
    change run (step (run (St.word stem) (b ++ w)) c) (cs ++ r) = St.acc at h
    generalize run (St.word stem) (b ++ w) = q2 at *
    cases q2 with
    | word ls =>
      cases ls with
      | nil => rfl
      | cons l ls =>
        rw [step_word_cons_of_not_letter hg (foldLetter_of_isSpace hc), run_fail] at h
        cases h
    | spaces => exact absurd rfl h2
    | acc => exact absurd rfl h1
    | fail =>
      rw [show step St.fail c = St.fail from rfl, run_fail] at h
      cases h

theorem render_eq (d : EquipMap) (w s id : Text) :
    render d (Match.mk w s id) = renderRef d w s id := by
  unfold render renderRef Match.text
  cases mapGet d id <;> simp

/-- One reference between two texts without references. -/
theorem enrich_reference (d : EquipMap) {p w s id q : Text}
    (hp : findMatch p = none) (hw : IsWord w)
    (hs : s ≠ []) (hs2 : ∀ c ∈ s, isSpace c = true)
    (hid : id ≠ []) (hid2 : ∀ c ∈ id, isDigit c = true)
    (hq : findMatch q = none) (hq2 : startsWithDigit q = false) :
    enrich d (p ++ (w ++ (s ++ (id ++ q)))) = p ++ (renderRef d w s id ++ q) := by
  have h0 : matchHere (w ++ (s ++ (id ++ q))) = some (Match.mk w s id) :=
    matchHere_of_shape hw hs hs2 hid hid2 hq2
  obtain ⟨a, b, m, e, h1, h2⟩ := first_match_split p (y := w ++ (s ++ (id ++ q)))
    (by rw [h0]; simp)
  have hb := matchHere_suffix_none hp e
  have hacc : run S0 (b ++ (w ++ (s ++ (id ++ q)))) = St.acc := by
    rw [← matchHere_ne_none_iff, h2]
    simp
  have hbw : IsWord (b ++ w) := word_extend hb hw hs hs2 hacc
  have h3 : matchHere ((b ++ w) ++ (s ++ (id ++ q))) = some (Match.mk (b ++ w) s id) :=
    matchHere_of_shape hbw hs hs2 hid hid2 hq2
  rw [List.append_assoc, h2] at h3
  simp only [Option.some.injEq] at h3
  subst h3
  have e2 : b ++ (w ++ (s ++ (id ++ q))) = (Match.mk (b ++ w) s id).text ++ q := by
    simp [Match.text]
  rw [e2] at h1 h2
  rw [e, List.append_assoc, e2, enrich_match d h1 h2, enrich_none d hq, render_eq]
  unfold renderRef
  cases mapGet d id <;> simp

/-! ## A second pass over enriched text -/

theorem render_some {d : EquipMap} {m : Match} {t : Text} (h : mapGet d m.id = some t) :
    render d m = m.word ++ (' ' :: '"' :: (t ++ ('"' :: ' ' :: '(' :: 'I' :: 'D' :: ' ' ::
      (m.id ++ [')'])))) := by
  simp [render, h]

theorem render_none {d : EquipMap} {m : Match} (h : mapGet d m.id = none) :
    render d m = m.text := by
  simp [render, h]

theorem match_text_digit_end {s : Text} {m : Match} (h : matchHere s = some m) :
    ∃ x c, m.text = x ++ [c] ∧ isDigit c = true := by
  obtain ⟨_, _, _, h4, h5, _⟩ := matchHere_shape h
  rcases List.eq_nil_or_concat m.id with e | ⟨x, c, e⟩
  · exact absurd e h4
  · refine ⟨m.word ++ (m.space ++ x), c, ?_, h5 c (by rw [e]; simp)⟩
    simp [Match.text, e]

theorem match_rest_no_digit {m : Match} {q : Text} (h : matchHere (m.text ++ q) = some m) :
    startsWithDigit q = false := by
  obtain ⟨q1, e, hq⟩ := matchHere_text h
  rw [List.append_cancel_left e]
  exact hq

/-- What follows a text that ends with a digit does not change where
matches start before it. -/
theorem NoMatchIn_digit_end {a x : Text} {c : Char} (hc : isDigit c = true) {y : Text}
    (y1 : Text) (h : NoMatchIn a ((x ++ [c]) ++ y)) : NoMatchIn a ((x ++ [c]) ++ y1) := by
  intro a1 b e hb
  have := h a1 b e hb
  rw [matchHere_none_iff] at this ⊢
  have e1 : ∀ z, b ++ ((x ++ [c]) ++ z) = (b ++ x) ++ c :: z := by intro z; simp
  rw [e1, run_digit_end good_S0 _ hc] at this ⊢
  exact this

theorem NoMatchIn_nil_right {a y : Text} (h : NoMatchIn a y) : NoMatchIn a [] := by
  intro a1 b e hb
  have := h a1 b e hb
  rw [matchHere_none_iff] at this ⊢
  intro h2
  rw [List.append_nil] at h2
  exact this (run_acc_append y h2)

/-- The enriched text begins with a digit exactly when the text does. -/
theorem startsWithDigit_enrich (d : EquipMap) (s : Text) :
    startsWithDigit (enrich d s) = startsWithDigit s := by
  cases hf : findMatch s with
  | none => rw [enrich_none d hf]
  | some r =>
    obtain ⟨n, m⟩ := r
    obtain ⟨a, q, e, _, hm, hno⟩ := findMatch_some hf
    rw [e, enrich_match d hno hm]
    cases a with
    | cons c cs => rfl
    | nil =>
      obtain ⟨hw, _⟩ := matchHere_shape hm
      have hne := (isWord_ne_nil hw)
      cases hword : m.word with
      | nil => exact absurd hword hne
      | cons c cs =>
        cases hg : mapGet d m.id with
        | none =>
          rw [render_none hg]
          simp [Match.text, hword, startsWithDigit]
        | some t =>
          rw [render_some hg, hword]
          simp [Match.text, hword, startsWithDigit]

theorem isOther_quote : isOther '"' = true := by decide

theorem isSpace_blank : isSpace ' ' = true := by decide

/-- No match starts inside the rewritten form of a resolved reference, nor
before it where none started in the original text. -/
theorem NoMatchIn_rendered {a q t Y : Text} {m : Match}
    (hno : NoMatchIn a (m.text ++ q)) (hm : matchHere (m.text ++ q) = some m)
    (ht : findMatch t = none) :
    NoMatchIn (a ++ (m.word ++ (' ' :: '"' :: (t ++ ('"' :: ' ' :: '(' :: 'I' :: 'D' :: ' ' ::
      (m.id ++ [')'])))))) Y := by
  obtain ⟨hw, _, _, _, hid, _⟩ := matchHere_shape hm
  have step1 : ∀ (b R : Text), run S0 (b ++ m.word) ≠ St.acc →
      matchHere (b ++ (m.word ++ ' ' :: '"' :: R)) = none := by
    intro b R hb
    rw [matchHere_none_iff, ← List.append_assoc, run_append]
    exact run_space_other (good_run _ good_S0) isSpace_blank isOther_quote R hb
  have e1 : ∀ R : Text, ' ' :: '"' :: R = [' ', '"'] ++ R := fun R => rfl
  have e2 : ∀ R : Text, '"' :: ' ' :: '(' :: 'I' :: 'D' :: ' ' :: R =
      ['"', ' ', '(', 'I', 'D', ' '] ++ R := fun R => rfl
  rw [e1, e2, NoMatchIn_append, NoMatchIn_append, NoMatchIn_append, NoMatchIn_append,
    NoMatchIn_append, NoMatchIn_append]
  refine ⟨?_, ?_, ?_, ?_, ?_, ?_, ?_⟩
  · intro a1 b e hb
    simp only [List.append_assoc, List.cons_append, List.nil_append]
    apply step1
    have := hno a1 b e hb
    rw [matchHere_none_iff] at this
    intro h2
    apply this
    have e3 : b ++ (m.text ++ q) = (b ++ m.word) ++ (m.space ++ (m.id ++ q)) := by
      simp [Match.text]
    rw [e3]
    exact run_acc_append _ h2
  · intro a1 b e hb
    simp only [List.append_assoc, List.cons_append, List.nil_append]
    have hbl : ∀ c ∈ b, foldLetter c = true := by
      intro c hc
      exact (isWord_letters hw) c (by rw [e]; exact List.mem_append_right _ hc)
    rw [matchHere_none_iff, run_append]
    apply run_space_other (good_run _ good_S0) isSpace_blank isOther_quote
    exact run_letters_ne_acc hbl (by simp)
  · exact NoMatchIn_of_no_start (by decide) _
  · intro a1 b e hb
    simp only [List.append_assoc, List.cons_append, List.nil_append]
    rw [matchHere_none_iff, ne_eq, run_other good_S0 b isOther_quote]
    exact matchHere_suffix_none ht e
  · exact NoMatchIn_of_no_start (by decide) _
  · apply NoMatchIn_of_no_start
    intro c hc
    exact foldLit_of_not_letter _ (by decide) (foldLetter_of_isDigit (hid c hc))
  · exact NoMatchIn_of_no_start (by decide) _

/-- A second pass changes nothing when no title of the directory contains a
reference. -/
theorem enrich_idem (d : EquipMap) (hd : ∀ k t, mapGet d k = some t → findMatch t = none)
    (s : Text) : enrich d (enrich d s) = enrich d s := by
  refine scan_induction (P := fun s => enrich d (enrich d s) = enrich d s) ?_ ?_ s
  · intro s hf
    rw [enrich_none d hf, enrich_none d hf]
  · intro a m q hno hm ih
    rw [enrich_match d hno hm]
    cases hg : mapGet d m.id with
    | none =>
      rw [render_none hg]
      obtain ⟨x, c, e, hc⟩ := match_text_digit_end hm
      have h1 : NoMatchIn a (m.text ++ enrich d q) := by
        rw [e] at hno ⊢
        exact NoMatchIn_digit_end hc _ hno
      have h2 : matchHere (m.text ++ enrich d q) = some m := by
        apply matchHere_text_append hm
        rw [startsWithDigit_enrich]
        exact match_rest_no_digit hm
      rw [enrich_match d h1 h2, ih, render_none hg]
    | some t =>
      rw [render_some hg, ← List.append_assoc,
        enrich_skip d (NoMatchIn_rendered hno hm (hd _ _ hg)), ih]

/-! ## All matches of a text -/

theorem findAllLoop_fuel (f1 f2 off : Nat) (s : Text)
    (h1 : s.length < f1) (h2 : s.length < f2) :
    findAllLoop f1 off s = findAllLoop f2 off s := by
  induction f1 generalizing f2 off s with
  | zero => omega
  | succ k ih =>
    cases f2 with
    | zero => omega
    | succ j =>
      rw [findAllLoop, findAllLoop]
      cases hf : findMatch s with
      | none => rfl
      | some r =>
        obtain ⟨n, m⟩ := r
        obtain ⟨a, q, e, hl, hm, _⟩ := findMatch_some hf
        have hlen : 0 < m.text.length := List.length_pos.2 (match_text_ne_nil hm)
        have hs : s.length = a.length + (m.text.length + q.length) := by
          rw [e]; simp
        simp only
        rw [ih j _ (s.drop (n + m.text.length)) (by simp; omega) (by simp; omega)]

theorem findAllLoop_offset (f off : Nat) (s : Text) :
    findAllLoop f off s = (findAllLoop f 0 s).map (fun r => (off + r.1, r.2)) := by
  induction f generalizing off s with
  | zero => rfl
  | succ k ih =>
    rw [findAllLoop, findAllLoop]
    cases hf : findMatch s with
    | none => rfl
    | some r =>
      obtain ⟨n, m⟩ := r
      simp only [List.map_cons, Nat.zero_add]
      rw [ih (off + n + m.text.length), ih (n + m.text.length)]
      simp only [List.map_map, List.cons.injEq, true_and]
      apply List.map_congr_left
      intro r _
      simp only [Function.comp, Prod.mk.injEq, and_true]
      omega

theorem findAll_none {s : Text} (h : findMatch s = none) : FindAllStringSubmatchIndex s = [] := by
  unfold FindAllStringSubmatchIndex
  rw [findAllLoop, h]

/-- One round of the loop of `FindAllStringSubmatchIndex`. -/
theorem findAll_match {a q : Text} {m : Match}
    (hno : NoMatchIn a (m.text ++ q)) (hm : matchHere (m.text ++ q) = some m) :
    FindAllStringSubmatchIndex (a ++ (m.text ++ q)) =
      (a.length, m) :: (FindAllStringSubmatchIndex q).map
        (fun r => (a.length + m.text.length + r.1, r.2)) := by
  have hf : findMatch (a ++ (m.text ++ q)) = some (a.length, m) := by
    rw [findMatch_append hno, findMatch_here hm]
    rfl
  have hlen : 0 < m.text.length := List.length_pos.2 (match_text_ne_nil hm)
  unfold FindAllStringSubmatchIndex
  rw [findAllLoop, hf]
  simp only [Nat.zero_add]
  have e1 : List.drop (a.length + m.text.length) (a ++ (m.text ++ q)) = q := by
    rw [← List.append_assoc, ← List.length_append]
    exact List.drop_left _ _
  rw [e1, findAllLoop_offset,
    findAllLoop_fuel _ (q.length + 1) 0 q (by simp; omega) (by omega)]

/-- The enrichment around one of the matches of a text. -/
theorem enrich_at_match (d : EquipMap) (s : Text) :
    ∀ k m, (k, m) ∈ FindAllStringSubmatchIndex s →
      enrich d s = enrich d (s.take k) ++
        (render d m ++ enrich d (s.drop (k + m.text.length))) := by
  refine scan_induction (P := fun s => ∀ k m, (k, m) ∈ FindAllStringSubmatchIndex s →
      enrich d s = enrich d (s.take k) ++
        (render d m ++ enrich d (s.drop (k + m.text.length)))) ?_ ?_ s
  · intro s hf k m hk
    rw [findAll_none hf] at hk
    cases hk
  · intro a m1 q hno hm ih k m hk
    have e1 : List.drop (a.length + m1.text.length) (a ++ (m1.text ++ q)) = q := by
      rw [← List.append_assoc, ← List.length_append]
      exact List.drop_left _ _
    rw [findAll_match hno hm, List.mem_cons] at hk
    rcases hk with hk | hk
    · simp only [Prod.mk.injEq] at hk
      obtain ⟨rfl, rfl⟩ := hk
      have ha : findMatch a = none := (findMatch_none_iff a).2 (NoMatchIn_nil_right hno)
      rw [e1, List.take_left, enrich_none d ha, enrich_match d hno hm]
    · rw [List.mem_map] at hk
      obtain ⟨r, hr, e⟩ := hk
      obtain ⟨k1, m2⟩ := r
      simp only [Prod.mk.injEq] at e
      obtain ⟨rfl, rfl⟩ := e
      have hq := ih k1 m2 hr
      obtain ⟨x, c, ex, hc⟩ := match_text_digit_end hm
      have h1 : NoMatchIn a (m1.text ++ q.take k1) := by
        rw [ex] at hno ⊢
        exact NoMatchIn_digit_end hc _ hno
      have h2 : matchHere (m1.text ++ q.take k1) = some m1 := by
        apply matchHere_text_append hm
        have := match_rest_no_digit hm
        cases q with
        | nil => simp [startsWithDigit]
        | cons y ys =>
          cases k1 with
          | zero => rfl
          | succ j => exact this
      have e2 : List.take (a.length + m1.text.length + k1) (a ++ (m1.text ++ q)) =
          a ++ (m1.text ++ q.take k1) := by
        rw [← List.append_assoc, ← List.length_append, List.take_append, List.append_assoc]
      have e3 : List.drop (a.length + m1.text.length + k1 + m2.text.length)
          (a ++ (m1.text ++ q)) = q.drop (k1 + m2.text.length) := by
        rw [← List.append_assoc, ← List.length_append, Nat.add_assoc, List.drop_append]
      rw [e2, e3, enrich_match d h1 h2, enrich_match d hno hm, hq]
      simp only [List.append_assoc]

theorem allMatches_none {s : Text} (h : findMatch s = none) : allMatches s = [] := by
  unfold allMatches
  rw [findAll_none h]
  rfl

theorem allMatches_match {a q : Text} {m : Match}
    (hno : NoMatchIn a (m.text ++ q)) (hm : matchHere (m.text ++ q) = some m) :
    allMatches (a ++ (m.text ++ q)) = m :: allMatches q := by
  unfold allMatches
  rw [findAll_match hno hm]
  simp [Function.comp]

theorem allMatches_skip {x y : Text} (h : NoMatchIn x y) :
    allMatches (x ++ y) = allMatches y := by
  cases hf : findMatch y with
  | none =>
    have : findMatch (x ++ y) = none := by rw [findMatch_append h, hf]; rfl
    rw [allMatches_none this, allMatches_none hf]
  | some r =>
    obtain ⟨n, m⟩ := r
    obtain ⟨a, q, e, _, hm, hno⟩ := findMatch_some hf
    have h2 : NoMatchIn (x ++ a) (m.text ++ q) := by
      rw [NoMatchIn_append, ← e]
      exact ⟨h, hno⟩
    rw [e, ← List.append_assoc, allMatches_match h2 hm, allMatches_match hno hm]

/-- The matches of the enriched text are the unresolved matches of the
text, when no title contains a reference. -/
theorem allMatches_enrich (d : EquipMap)
    (hd : ∀ k t, mapGet d k = some t → findMatch t = none) (s : Text) :
    allMatches (enrich d s) = (allMatches s).filter (fun m => (mapGet d m.id).isNone) := by
  refine scan_induction (P := fun s => allMatches (enrich d s) =
    (allMatches s).filter (fun m => (mapGet d m.id).isNone)) ?_ ?_ s
  · intro s hf
    rw [enrich_none d hf, allMatches_none hf]
    rfl
  · intro a m q hno hm ih
    rw [enrich_match d hno hm, allMatches_match hno hm]
    cases hg : mapGet d m.id with
    | none =>
      rw [render_none hg]
      obtain ⟨x, c, e, hc⟩ := match_text_digit_end hm
      have h1 : NoMatchIn a (m.text ++ enrich d q) := by
        rw [e] at hno ⊢
        exact NoMatchIn_digit_end hc _ hno
      have h2 : matchHere (m.text ++ enrich d q) = some m := by
        apply matchHere_text_append hm
        rw [startsWithDigit_enrich]
        exact match_rest_no_digit hm
      rw [allMatches_match h1 h2, ih]
      simp [List.filter_cons, hg]
    | some t =>
      rw [render_some hg, ← List.append_assoc,
        allMatches_skip (NoMatchIn_rendered hno hm (hd _ _ hg)), ih]
      simp [List.filter_cons, hg]

/-! ## Stem words and their casing -/

theorem hasReference_false {s : Text} (h : hasReference s = false) : findMatch s = none := by
  unfold hasReference at h
  cases hf : findMatch s with
  | none => rfl
  | some r => rw [hf] at h; cases h

theorem isSpaceRun_spec {s : Text} (h : isSpaceRun s = true) :
    s ≠ [] ∧ ∀ c ∈ s, isSpace c = true := by
  unfold isSpaceRun at h
  simp only [Bool.and_eq_true, Bool.not_eq_true', List.isEmpty_eq_false, List.all_eq_true] at h
  cases s with
  | nil => simp at h
  | cons c cs => exact ⟨by simp, h.2⟩

theorem isDigitRun_spec {s : Text} (h : isDigitRun s = true) :
    s ≠ [] ∧ ∀ c ∈ s, isDigit c = true := by
  unfold isDigitRun at h
  simp only [Bool.and_eq_true, Bool.not_eq_true', List.isEmpty_eq_false, List.all_eq_true] at h
  cases s with
  | nil => simp at h
  | cons c cs => exact ⟨by simp, h.2⟩

theorem simpleFoldLower_lower {c : Char} (h : isLowerLetter c = true) :
    simpleFoldLower c = c.toNat := by
  simp only [isLowerLetter, Bool.and_eq_true, decide_eq_true_eq] at h
  unfold simpleFoldLower
  simp only
  split_ifs <;> omega

theorem foldLetter_of_lower {c : Char} (h : isLowerLetter c = true) : foldLetter c = true := by
  unfold foldLetter
  rw [simpleFoldLower_lower h]
  exact h

theorem run_stem : run (St.word stem) stem = St.word [] := by
  unfold stem
  decide

theorem isStemWord_isWord {w : Text} (h : isStemWord w = true) : IsWord w := by
  unfold isStemWord at h
  simp only [Bool.and_eq_true, beq_iff_eq, List.all_eq_true] at h
  have e : w = stem ++ w.drop stem.length := by
    conv_lhs => rw [← List.take_append_drop stem.length w, h.1]
  unfold IsWord
  rw [e, run_append, run_stem]
  exact run_letters_all (fun c hc => foldLetter_of_lower (h.2 c hc))

theorem stem_lower : ∀ c ∈ stem, isLowerLetter c = true := by
  unfold stem
  decide

theorem isStemWord_lower {w : Text} (h : isStemWord w = true) :
    ∀ c ∈ w, isLowerLetter c = true := by
  unfold isStemWord at h
  simp only [Bool.and_eq_true, beq_iff_eq, List.all_eq_true] at h
  intro c hc
  rw [← List.take_append_drop stem.length w, h.1] at hc
  rcases List.mem_append.1 hc with hc | hc
  · exact stem_lower c hc
  · exact h.2 c hc

theorem step_casing {a b : Char} (hb : isLowerLetter b = true)
    (h : (a == b || (isUpperLetter a && a.toNat + 0x20 == b.toNat)) = true) (q : St) :
    step q a = step q b := by
  simp only [Bool.or_eq_true, beq_iff_eq, Bool.and_eq_true] at h
  rcases h with h | ⟨h1, h2⟩
  · rw [h]
  · have hb2 := hb
    simp only [isLowerLetter, Bool.and_eq_true, decide_eq_true_eq] at hb2
    simp only [isUpperLetter, Bool.and_eq_true, decide_eq_true_eq] at h1
    have e1 : simpleFoldLower a = simpleFoldLower b := by
      rw [simpleFoldLower_lower hb]
      unfold simpleFoldLower
      simp only
      split_ifs
      omega
    have e2 : foldLetter a = foldLetter b := by unfold foldLetter; rw [e1]
    have e3 : ∀ l, foldLit l a = foldLit l b := by intro l; unfold foldLit; rw [e1]
    have e4 : isSpace a = isSpace b := by
      rw [isSpace_of_foldLetter (foldLetter_of_lower hb),
        isSpace_of_foldLetter (e2 ▸ foldLetter_of_lower hb)]
    have e5 : isDigit a = isDigit b := by
      rw [isDigit_of_foldLetter (foldLetter_of_lower hb),
        isDigit_of_foldLetter (e2 ▸ foldLetter_of_lower hb)]
    cases q with
    | word ls =>
      cases ls with
      | nil => simp only [step, e2, e4]
      | cons l ls => simp only [step, e3]
    | spaces => simp only [step, e4, e5]
    | acc => rfl
    | fail => rfl

theorem run_casing {v w : Text} (hw : ∀ c ∈ w, isLowerLetter c = true)
    (h : isCasingOf v w = true) (q : St) : run q v = run q w := by
  induction v generalizing w q with
  | nil =>
    cases w with
    | nil => rfl
    | cons b bs => simp [isCasingOf] at h
  | cons a as ih =>
    cases w with
    | nil => simp [isCasingOf] at h
    | cons b bs =>
      rw [isCasingOf, Bool.and_eq_true] at h
      rw [run_cons, run_cons, step_casing (hw b (List.mem_cons_self _ _)) h.1,
        ih (fun c hc => hw c (List.mem_cons_of_mem _ hc)) h.2]

/-- Every casing variant of a stem word is matched by capture group 1. -/
theorem isCasingOf_isWord {v w : Text} (hw : isStemWord w = true)
    (h : isCasingOf v w = true) : IsWord v := by
  unfold IsWord
  rw [run_casing (isStemWord_lower hw) h]
  exact isStemWord_isWord hw

theorem enrich_nil (d : EquipMap) : enrich d [] = [] := rfl

/-- With a catalog that answers, `enrichLogMessage` is the substitution with
the map built from its rows, also on the empty message. -/
theorem enrichLogMessage_some (rows : List Row) (msg : Text) :
    enrichLogMessage (some rows) msg = enrich (buildEquipMap rows) msg := by
  unfold enrichLogMessage enrichLogMessageTraced
  by_cases h : msg = []
  · subst h
    rfl
  · simp only [h, if_false]
    rfl

/-! ## strconv.Itoa and the keys of the map -/

theorem digitChar_ne_zero {u : Nat} (h1 : 0 < u) (h2 : u < 10) : digitChar u ≠ '0' := by
  interval_cases u <;> decide

theorem formatNat_zero (f : Nat) : formatNat f 0 = ['0'] := by
  cases f <;> rfl

theorem formatNat_head {f u : Nat} (hf : u ≤ f) (hu : 0 < u) :
    ∃ c cs, formatNat f u = c :: cs ∧ c ≠ '0' := by
  induction f generalizing u with
  | zero => omega
  | succ k ih =>
    rw [formatNat]
    by_cases h : u < 10
    · rw [if_pos h]
      exact ⟨digitChar u, [], rfl, digitChar_ne_zero hu h⟩
    · rw [if_neg h]
      obtain ⟨c, cs, e, hc⟩ := ih (u := u / 10) (by omega) (by omega)
      exact ⟨c, cs ++ [digitChar u], by rw [e]; rfl, hc⟩

/-- The result of `strconv.Itoa` has no leading zero. -/
theorem Itoa_no_leading_zero (i : Int) (c : Char) (cs : Text) : Itoa i ≠ '0' :: c :: cs := by
  unfold Itoa
  split_ifs with h
  · intro e
    simp only [List.cons.injEq] at e
    exact absurd e.1 (by decide)
  · by_cases h0 : i.natAbs = 0
    · rw [h0, formatNat_zero]
      simp
    · obtain ⟨x, xs, e, hx⟩ := formatNat_head (le_refl i.natAbs) (Nat.pos_of_ne_zero h0)
      rw [e]
      intro e2
      simp only [List.cons.injEq] at e2
      exact hx e2.1

/-- Every binding of the map comes from a row that scanned: the key is the
`strconv.Itoa` rendering of its ID, the value its title. -/
theorem buildEquipMap_keys (rows : List Row) :
    ∀ k t, mapGet (buildEquipMap rows) k = some t →
      ∃ i : Int, some (i, t) ∈ rows ∧ k = Itoa i := by
  unfold buildEquipMap
  have key : ∀ (rs : List Row) (acc : EquipMap), (∀ r ∈ rs, r ∈ rows) →
      (∀ k t, mapGet acc k = some t → ∃ i : Int, some (i, t) ∈ rows ∧ k = Itoa i) →
      ∀ k t, mapGet (rs.foldl (fun m row =>
        match row with
        | some (id, title) => (Itoa id, title) :: m
        | none => m) acc) k = some t → ∃ i : Int, some (i, t) ∈ rows ∧ k = Itoa i := by
    intro rs
    induction rs with
    | nil => intro acc _ h; exact h
    | cons r rs ih =>
      intro acc hsub h
      rw [List.foldl_cons]
      apply ih _ (fun x hx => hsub x (List.mem_cons_of_mem _ hx))
      have hr : r ∈ rows := hsub r (List.mem_cons_self _ _)
      cases r with
      | none => exact h
      | some p =>
        obtain ⟨id, title⟩ := p
        intro k t hk
        simp only [mapGet] at hk
        split_ifs at hk with hc
        · simp only [Option.some.injEq] at hk
          exact ⟨id, hk ▸ hr, hc.symm⟩
        · exact h k t hk
  exact key rows [] (fun r hr => hr) (by intro k t h; simp [mapGet] at h)

/-- A key with a leading zero and at least two runes is not in the map. -/
theorem mapGet_leading_zero (rows : List Row) {id : Text} (h1 : 2 ≤ id.length)
    (h2 : id.head? = some '0') : mapGet (buildEquipMap rows) id = none := by
  cases hg : mapGet (buildEquipMap rows) id with
  | none => rfl
  | some t =>
    obtain ⟨i, _, e⟩ := buildEquipMap_keys rows id t hg
    cases id with
    | nil => simp at h1
    | cons a as =>
      cases as with
      | nil => simp at h1
      | cons b bs =>
        simp only [List.head?_cons, Option.some.injEq] at h2
        subst h2
        exact absurd e.symm (Itoa_no_leading_zero i b bs)

/-- A text without a digit contains no reference. -/
theorem findMatch_no_digit {t : Text} (h : ∀ c ∈ t, isDigit c = false) : findMatch t = none := by
  cases hf : findMatch t with
  | none => rfl
  | some r =>
    obtain ⟨n, m⟩ := r
    obtain ⟨a, q, e, _, hm, _⟩ := findMatch_some hf
    obtain ⟨_, _, _, h4, h5, _⟩ := matchHere_shape hm
    cases hid : m.id with
    | nil => exact absurd hid h4
    | cons c cs =>
      have hc : isDigit c = true := h5 c (by rw [hid]; exact List.mem_cons_self _ _)
      have : c ∈ t := by
        rw [e]
        simp [Match.text, hid]
      rw [h c this] at hc
      cases hc

/-- When every match is unresolved the text is unchanged. -/
theorem enrich_all_unresolved (d : EquipMap) (s : Text) :
    (∀ k m, (k, m) ∈ FindAllStringSubmatchIndex s → mapGet d m.id = none) →
      enrich d s = s := by
  refine scan_induction (P := fun s => (∀ k m, (k, m) ∈ FindAllStringSubmatchIndex s →
    mapGet d m.id = none) → enrich d s = s) ?_ ?_ s
  · intro s hf _
    exact enrich_none d hf
  · intro a m q hno hm ih h
    rw [findAll_match hno hm] at h
    have h1 : mapGet d m.id = none := h a.length m (List.mem_cons_self _ _)
    have h2 : enrich d q = q := by
      apply ih
      intro k m2 hk
      apply h (a.length + m.text.length + k) m2
      apply List.mem_cons_of_mem
      rw [List.mem_map]
      exact ⟨(k, m2), hk, rfl⟩
    rw [enrich_match d hno hm, render_none h1, h2]

/-! ## The pattern read structurally -/

theorem toNat_ofNat_lower {n : Nat} (h1 : 0x430 ≤ n) (h2 : n ≤ 0x44F) :
    (Char.ofNat n).toNat = n := by
  have hv : n.isValidChar := by
    left
    omega
  unfold Char.ofNat
  rw [dif_pos hv]
  rfl

theorem lowerRune_lower {c : Char} (h : foldLetter c = true) :
    isLowerLetter (lowerRune c) = true := by
  simp only [foldLetter, Bool.and_eq_true, decide_eq_true_eq] at h
  simp only [isLowerLetter, lowerRune, toNat_ofNat_lower h.1 h.2, Bool.and_eq_true,
    decide_eq_true_eq]
  exact h

theorem lowerRune_variant {c : Char} (h : foldLetter c = true) :
    isVariantOf c (lowerRune c) = true := by
  simp only [foldLetter, Bool.and_eq_true, decide_eq_true_eq] at h
  have e := toNat_ofNat_lower h.1 h.2
  by_cases hs : simpleFoldLower c = c.toNat
  · have : lowerRune c = c := by
      unfold lowerRune
      rw [hs, Char.ofNat_toNat]
    rw [this]
    simp [isVariantOf]
  · unfold isVariantOf
    simp only [lowerRune, e, isUpperLetter]
    unfold simpleFoldLower at hs ⊢
    simp only at hs ⊢
    split_ifs at hs ⊢ with h1 h2 h3 h4 h5 h6 h7 h8 <;> simp_all

/-- The runes that match literals fold onto these literals. -/
theorem stripStem_lower {lits s m r : Text} (h : stripStem lits s = some (m, r)) :
    m.map lowerRune = lits := by
  induction lits generalizing s m r with
  | nil =>
    simp only [stripStem, Option.some.injEq, Prod.mk.injEq] at h
    rw [← h.1]
    rfl
  | cons l ls ih =>
    cases s with
    | nil => simp [stripStem] at h
    | cons c cs =>
      simp only [stripStem] at h
      split_ifs at h with hc
      cases hs : stripStem ls cs with
      | none => simp [hs] at h
      | some p =>
        obtain ⟨a, b⟩ := p
        simp [hs] at h
        rw [← h.1]
        simp only [foldLit, beq_iff_eq] at hc
        simp only [List.map_cons, ih hs, lowerRune, hc, Char.ofNat_toNat]

theorem isFoldingOf_map {v : Text} (h : ∀ c ∈ v, foldLetter c = true) :
    isFoldingOf v (v.map lowerRune) = true := by
  induction v with
  | nil => rfl
  | cons c cs ih =>
    simp only [List.map_cons, isFoldingOf, Bool.and_eq_true]
    exact ⟨lowerRune_variant (h c (List.mem_cons_self _ _)),
      ih (fun x hx => h x (List.mem_cons_of_mem _ hx))⟩

/-- What capture group 1 matches in full is a stem word with every letter
in one of its variants. -/
theorem isWord_folding {v : Text} (h : IsWord v) :
    ∃ w, isStemWord w = true ∧ isFoldingOf v w = true := by
  refine ⟨v.map lowerRune, ?_, isFoldingOf_map (isWord_letters h)⟩
  obtain ⟨st, l, h1, h2⟩ := word_split h
  have e := stripStem_eq h1
  have hl := stripStem_length h1
  have hm := stripStem_lower h1
  have e2 : v.map lowerRune = stem ++ l.map lowerRune := by
    rw [e, List.map_append, hm]
  have t1 : (stem ++ l.map lowerRune).take stem.length = stem := List.take_left _ _
  have t2 : (stem ++ l.map lowerRune).drop stem.length = l.map lowerRune := List.drop_left _ _
  unfold isStemWord
  rw [e2, t1, t2, Bool.and_eq_true]
  refine ⟨beq_self_eq_true _, ?_⟩
  rw [List.all_eq_true]
  intro x hx
  obtain ⟨c, hc, rfl⟩ := List.mem_map.1 hx
  exact lowerRune_lower (h2 c hc)

theorem fold_code (n m : Nat) (h1 : 0x430 ≤ m) (h2 : m ≤ 0x44F)
    (h : n = m ∨ ((0x410 ≤ n ∧ n ≤ 0x42F) ∧ n + 0x20 = m) ∨ (n = 0x1C80 ∧ m = 0x432) ∨
      (n = 0x1C81 ∧ m = 0x434) ∨ (n = 0x1C82 ∧ m = 0x43E) ∨ (n = 0x1C83 ∧ m = 0x441) ∨
      (n = 0x1C84 ∧ m = 0x442) ∨ (n = 0x1C85 ∧ m = 0x442) ∨ (n = 0x1C86 ∧ m = 0x44A)) :
    (if 0x410 ≤ n ∧ n ≤ 0x42F then n + 0x20
      else if n = 0x1C80 then 0x432
      else if n = 0x1C81 then 0x434
      else if n = 0x1C82 then 0x43E
      else if n = 0x1C83 then 0x441
      else if n = 0x1C84 then 0x442
      else if n = 0x1C85 then 0x442
      else if n = 0x1C86 then 0x44A
      else n) = m := by
  split_ifs <;> omega

theorem simpleFoldLower_variant {a b : Char} (h1 : 0x430 ≤ b.toNat) (h2 : b.toNat ≤ 0x44F)
    (h : isVariantOf a b = true) : simpleFoldLower a = b.toNat := by
  apply fold_code a.toNat b.toNat h1 h2
  simp only [isVariantOf, isUpperLetter, Bool.or_eq_true, beq_iff_eq, Bool.and_eq_true,
    decide_eq_true_eq] at h
  rcases h with (((((((h | h) | h) | h) | h) | h) | h) | h) | h
  · left; rw [h]
  · right; left; exact h
  · right; right; left; exact h
  · right; right; right; left; exact h
  · right; right; right; right; left; exact h
  · right; right; right; right; right; left; exact h
  · right; right; right; right; right; right; left; exact h
  · right; right; right; right; right; right; right; left; exact h
  · right; right; right; right; right; right; right; right; exact h

theorem step_variant {a b : Char} (hb : isLowerLetter b = true)
    (h : isVariantOf a b = true) (q : St) : step q a = step q b := by
  have hb2 := hb
  simp only [isLowerLetter, Bool.and_eq_true, decide_eq_true_eq] at hb2
  have e1 : simpleFoldLower a = simpleFoldLower b := by
    rw [simpleFoldLower_lower hb]
    exact simpleFoldLower_variant hb2.1 hb2.2 h
  have e2 : foldLetter a = foldLetter b := by unfold foldLetter; rw [e1]
  have e3 : ∀ l, foldLit l a = foldLit l b := by intro l; unfold foldLit; rw [e1]
  have e4 : isSpace a = isSpace b := by
    rw [isSpace_of_foldLetter (foldLetter_of_lower hb),
      isSpace_of_foldLetter (e2 ▸ foldLetter_of_lower hb)]
  have e5 : isDigit a = isDigit b := by
    rw [isDigit_of_foldLetter (foldLetter_of_lower hb),
      isDigit_of_foldLetter (e2 ▸ foldLetter_of_lower hb)]
  cases q with
  | word ls =>
    cases ls with
    | nil => simp only [step, e2, e4]
    | cons l ls => simp only [step, e3]
  | spaces => simp only [step, e4, e5]
  | acc => rfl
  | fail => rfl

theorem run_variant {v w : Text} (hw : ∀ c ∈ w, isLowerLetter c = true)
    (h : isFoldingOf v w = true) (q : St) : run q v = run q w := by
  induction v generalizing w q with
  | nil =>
    cases w with
    | nil => rfl
    | cons b bs => simp [isFoldingOf] at h
  | cons a as ih =>
    cases w with
    | nil => simp [isFoldingOf] at h
    | cons b bs =>
      rw [isFoldingOf, Bool.and_eq_true] at h
      rw [run_cons, run_cons, step_variant (hw b (List.mem_cons_self _ _)) h.1,
        ih (fun c hc => hw c (List.mem_cons_of_mem _ hc)) h.2]

/-- A stem word with every letter in one of its variants is matched in full
by capture group 1. -/
theorem isFoldingOf_isWord {v w : Text} (hw : isStemWord w = true)
    (h : isFoldingOf v w = true) : IsWord v := by
  unfold IsWord
  rw [run_variant (isStemWord_lower hw) h]
  exact isStemWord_isWord hw

theorem run_spaces_all {s : Text} (h : ∀ c ∈ s, isSpace c = true) :
    run St.spaces s = St.spaces := by
  induction s with
  | nil => rfl
  | cons c cs ih =>
    rw [run_cons]
    have hc : isSpace c = true := h c (List.mem_cons_self _ _)
    simp only [step, hc, if_true]
    exact ih (fun x hx => h x (List.mem_cons_of_mem _ hx))

/-- An occurrence of the pattern is a match of the expression. -/
theorem hasPattern_findMatch {msg : Text} (h : HasPattern isFoldingOf msg) :
    findMatch msg ≠ none := by
  obtain ⟨a, w, v, s, id, b, e, hw, hv, hs, hid⟩ := h
  have hword : IsWord v := isFoldingOf_isWord hw hv
  obtain ⟨hs1, hs2⟩ := isSpaceRun_spec hs
  obtain ⟨hid1, hid2⟩ := isDigitRun_spec hid
  intro hf
  rw [findMatch_none_iff] at hf
  have hv1 : v ≠ [] := isWord_ne_nil hword
  have hne : v ++ (s ++ (id ++ b)) ≠ [] := by simp [hv1]
  have := hf a (v ++ (s ++ (id ++ b))) (by rw [e]; simp) hne
  rw [List.append_nil, matchHere_none_iff] at this
  apply this
  cases s with
  | nil => exact absurd rfl hs1
  | cons c cs =>
    cases id with
    | nil => exact absurd rfl hid1
    | cons d ds =>
      have hc : isSpace c = true := hs2 c (List.mem_cons_self _ _)
      have hd : isDigit d = true := hid2 d (List.mem_cons_self _ _)
      have hcl := foldLetter_of_isSpace hc
      have hds := isSpace_of_isDigit hd
      have e1 : run S0 v = St.word [] := hword
      rw [run_append, e1, List.cons_append, run_cons]
      have e2 : step (St.word []) c = St.spaces := by simp [step, hcl, hc]
      rw [e2, run_append, run_spaces_all (fun x hx => hs2 x (List.mem_cons_of_mem _ hx)),
        List.cons_append, run_cons]
      have e3 : step St.spaces d = St.acc := by simp [step, hds, hd]
      rw [e3, run_acc]

/-- A match of the expression is an occurrence of the pattern. -/
theorem findMatch_hasPattern {msg : Text} (h : findMatch msg ≠ none) :
    HasPattern isFoldingOf msg := by
  cases hf : findMatch msg with
  | none => exact absurd hf h
  | some r =>
    obtain ⟨n, m⟩ := r
    obtain ⟨a, q, e, _, hm, _⟩ := findMatch_some hf
    obtain ⟨hw, hs1, hs2, hid1, hid2, _⟩ := matchHere_shape hm
    obtain ⟨w, hw1, hw2⟩ := isWord_folding hw
    refine ⟨a, w, m.word, m.space, m.id, q, ?_, hw1, hw2, ?_, ?_⟩
    · rw [e]
      simp [Match.text]
    · unfold isSpaceRun
      simp only [Bool.and_eq_true, Bool.not_eq_true', List.isEmpty_eq_false, List.all_eq_true]
      exact ⟨by cases h0 : m.space <;> simp_all, hs2⟩
    · unfold isDigitRun
      simp only [Bool.and_eq_true, Bool.not_eq_true', List.isEmpty_eq_false, List.all_eq_true]
      exact ⟨by cases h0 : m.id <;> simp_all, hid2⟩

/-- The expression matches somewhere in a message exactly when the message
contains a stem word with every letter small, capital or historic, then
whitespace, then digits. -/
theorem hasReference_iff_hasPattern (msg : Text) :
    hasReference msg = true ↔ HasPattern isFoldingOf msg := by
  unfold hasReference
  constructor
  · intro h
    apply findMatch_hasPattern
    intro e
    rw [e] at h
    cases h
  · intro h
    have := hasPattern_findMatch h
    cases hf : findMatch msg with
    | none => exact absurd hf this
    | some r => rfl

theorem hasCasedStart_cons (c : Char) {y : Text} (h : hasCasedStart y = true) :
    hasCasedStart (c :: y) = true := by
  cases y with
  | nil => cases h
  | cons d r =>
    simp only [hasCasedStart, Bool.or_eq_true]
    exact Or.inr h

theorem hasCasedStart_append (a : Text) {v0 v1 : Char} (x : Text)
    (h : isCasingOf [v0, v1] ['о', 'б'] = true) :
    hasCasedStart (a ++ v0 :: v1 :: x) = true := by
  induction a with
  | nil =>
    simp only [List.nil_append, hasCasedStart, Bool.or_eq_true]
    exact Or.inl h
  | cons c cs ih => exact hasCasedStart_cons c ih

/-- An occurrence of the pattern with a stem word in small and capital
letters shows a small or capital о followed by a small or capital б. -/
theorem hasPattern_casedStart {msg : Text} (h : HasPattern isCasingOf msg) :
    hasCasedStart msg = true := by
  obtain ⟨a, w, v, s, id, b, e, hw, hv, _, _⟩ := h
  unfold isStemWord at hw
  simp only [Bool.and_eq_true, beq_iff_eq, List.all_eq_true] at hw
  have ew : w = stem ++ w.drop stem.length := by
    conv_lhs => rw [← List.take_append_drop stem.length w, hw.1]
  rw [ew, stem_head] at hv
  cases v with
  | nil => simp [isCasingOf] at hv
  | cons v0 vs =>
    cases vs with
    | nil => simp [isCasingOf] at hv
    | cons v1 vr =>
      have h2 : isCasingOf [v0, v1] ['о', 'б'] = true := by
        simp only [String.toList, List.cons_append, isCasingOf, Bool.and_eq_true] at hv ⊢
        exact ⟨hv.1, hv.2.1, trivial⟩
      rw [e]
      simp only [List.append_assoc, List.cons_append]
      exact hasCasedStart_append a _ h2

/-! ## The claims -/

theorem mapGet_mem {m : EquipMap} {k t : Text} (h : mapGet m k = some t) :
    t ∈ m.map Prod.snd := by
  induction m with
  | nil => simp [mapGet] at h
  | cons e es ih =>
    obtain ⟨k1, v⟩ := e
    simp only [mapGet] at h
    split_ifs at h
    · simp only [Option.some.injEq] at h
      simp [h]
    · simp [ih h]

/-- Claim C1: a resolved reference is rewritten to `<word> "<title>" (ID <id>)`
and the text around it is kept. For every list of catalog rows, every stem
word `w` in any casing `v` (in particular `v = w`), every non-empty
whitespace run `s`, every non-empty digit string `id` bound to `t` in the
directory, and all texts `p`, `q` without a reference where `q` does not
begin with a digit, the message `p ++ v ++ s ++ id ++ q` is enriched to
`p ++ v ++ " \"" ++ t ++ "\" (ID " ++ id ++ ")" ++ q`. -/
theorem enrich_resolved_reference (rows : List Row) (p w v s id q t : Text)
    (hw : isStemWord w = true) (hv : isCasingOf v w = true)
    (hs : isSpaceRun s = true) (hid : isDigitRun id = true)
    (hd : mapGet (buildEquipMap rows) id = some t)
    (hp : hasReference p = false) (hq : hasReference q = false)
    (hq2 : startsWithDigit q = false) :
    enrichLogMessage (some rows) (p ++ v ++ s ++ id ++ q) =
      p ++ v ++ " \"".toList ++ t ++ "\" (ID ".toList ++ id ++ ")".toList ++ q := by
  have h := enrich_reference (buildEquipMap rows) (hasReference_false hp)
    (isCasingOf_isWord hw hv) (isSpaceRun_spec hs).1 (isSpaceRun_spec hs).2
    (isDigitRun_spec hid).1 (isDigitRun_spec hid).2 (hasReference_false hq) hq2
  rw [enrichLogMessage_some]
  simp only [List.append_assoc]
  rw [h, renderRef, hd]
  simp only [List.append_assoc]

/-- The example of claim C1: with the directory 1 → Filter, 7 → Polisher the
message `Оборудование 1 failed` becomes `Оборудование "Filter" (ID 1) failed`. -/
theorem enrich_resolved_reference_witness :
    (isStemWord "оборудование".toList = true ∧
      isCasingOf "Оборудование".toList "оборудование".toList = true ∧
      isSpaceRun " ".toList = true ∧ isDigitRun "1".toList = true ∧
      mapGet (buildEquipMap [some (1, "Filter".toList), some (7, "Polisher".toList)])
        "1".toList = some "Filter".toList ∧
      hasReference [] = false ∧ hasReference " failed".toList = false ∧
      startsWithDigit " failed".toList = false) ∧
    enrichLogMessage (some [some (1, "Filter".toList), some (7, "Polisher".toList)])
      ([] ++ "Оборудование".toList ++ " ".toList ++ "1".toList ++ " failed".toList) =
      [] ++ "Оборудование".toList ++ " \"".toList ++ "Filter".toList ++ "\" (ID ".toList ++
        "1".toList ++ ")".toList ++ " failed".toList :=
  ⟨by decide,
    enrich_resolved_reference [some (1, "Filter".toList), some (7, "Polisher".toList)]
      [] "оборудование".toList "Оборудование".toList " ".toList "1".toList " failed".toList
      "Filter".toList (by decide) (by decide) (by decide) (by decide) (by decide) (by decide)
      (by decide) (by decide)⟩

/-- Claim C2: a reference whose ID has no directory entry is copied to the
output verbatim while the rest of the message is still enriched. For every
list of catalog rows and every message, each match of the expression (at
offset `k`) whose captured digits are not a key of the directory stands
unchanged in the output, between the enrichment of the text before it and
the enrichment of the text behind it; if no captured ID is a key (in
particular when the directory is empty) the message is returned unchanged. -/
theorem enrich_unresolved_verbatim (rows : List Row) (msg : Text) :
    (∀ k m, (k, m) ∈ FindAllStringSubmatchIndex msg →
      mapGet (buildEquipMap rows) m.id = none →
      enrichLogMessage (some rows) msg =
        enrichLogMessage (some rows) (msg.take k) ++ m.text ++
          enrichLogMessage (some rows) (msg.drop (k + m.text.length))) ∧
    ((∀ k m, (k, m) ∈ FindAllStringSubmatchIndex msg →
      mapGet (buildEquipMap rows) m.id = none) →
      enrichLogMessage (some rows) msg = msg) ∧
    enrichLogMessage (some []) msg = msg := by
  refine ⟨?_, ?_, ?_⟩
  · intro k m hk hm
    simp only [enrichLogMessage_some]
    rw [enrich_at_match (buildEquipMap rows) msg k m hk, render_none hm, List.append_assoc]
  · intro h
    rw [enrichLogMessage_some]
    exact enrich_all_unresolved _ msg h
  · rw [enrichLogMessage_some]
    apply enrich_all_unresolved
    intro k m _
    rfl

/-- The example of claim C2: with the directory 1 → Filter, 7 → Polisher the
message `оборудования 7 и оборудование 99` keeps `оборудование 99` and
rewrites the reference to 7. -/
theorem enrich_unresolved_verbatim_witness :
    ((17, Match.mk "оборудование".toList " ".toList "99".toList) ∈
        FindAllStringSubmatchIndex "оборудования 7 и оборудование 99".toList ∧
      mapGet (buildEquipMap [some (1, "Filter".toList), some (7, "Polisher".toList)])
        "99".toList = none) ∧
    enrichLogMessage (some [some (1, "Filter".toList), some (7, "Polisher".toList)])
      "оборудования 7 и оборудование 99".toList =
      "оборудования \"Polisher\" (ID 7) и ".toList ++ "оборудование 99".toList ++ [] :=
  ⟨by decide,
    ((enrich_unresolved_verbatim [some (1, "Filter".toList), some (7, "Polisher".toList)]
      "оборудования 7 и оборудование 99".toList).1 17
      (Match.mk "оборудование".toList " ".toList "99".toList) (by decide) (by decide)).trans
      (by decide)⟩

/-- Without a match of the expression the message is returned as it is,
whatever the state of the catalog. -/
theorem enrich_no_match (db : Catalog) (msg : Text) (h : findMatch msg = none) :
    enrichLogMessage db msg = msg := by
  cases db with
  | none =>
    unfold enrichLogMessage enrichLogMessageTraced
    by_cases hm : msg = []
    · simp [hm]
    · simp [hm]
  | some rows =>
    rw [enrichLogMessage_some]
    exact enrich_none _ h

/-- Claim C3 fails as stated: the message `ᲂборудование 7`, whose first
rune is the historic letter U+1C82 (narrow о), contains no occurrence of the
pattern with a stem word in small and capital letters (so none with a
lower-case stem word either), yet with the directory 7 → Polisher it is
rewritten, because `(?i)` folds U+1C82 onto о. -/
theorem enrich_no_pattern_counterexample :
    ¬ HasPattern isCasingOf (Char.ofNat 0x1C82 :: "борудование 7".toList) ∧
    enrichLogMessage (some [some (7, "Polisher".toList)])
      (Char.ofNat 0x1C82 :: "борудование 7".toList) =
      Char.ofNat 0x1C82 :: "борудование \"Polisher\" (ID 7)".toList ∧
    enrichLogMessage (some [some (7, "Polisher".toList)])
      (Char.ofNat 0x1C82 :: "борудование 7".toList) ≠
      Char.ofNat 0x1C82 :: "борудование 7".toList :=
  ⟨fun h => absurd (hasPattern_casedStart h) (by decide), by decide, by decide⟩

/-- Claim C3, amended: for every state of the catalog and every message that
contains no occurrence of the pattern, the message is returned unchanged,
where an occurrence of the pattern is a stem word with each of its letters
small, capital or in a historic variant U+1C80..U+1C86 (the runes that
`(?i)` folds onto the letters of the expression), followed by one or more
whitespace runes of `\s` and one or more decimal digits. -/
theorem enrich_no_pattern (db : Catalog) (msg : Text) (h : ¬ HasPattern isFoldingOf msg) :
    enrichLogMessage db msg = msg := by
  apply enrich_no_match
  cases hf : findMatch msg with
  | none => rfl
  | some r => exact absurd (findMatch_hasPattern (by rw [hf]; simp)) h

/-- An instance of the amended claim C3: a stem word directly followed by a
digit, and a stem word followed by whitespace and a sign before the digit. -/
theorem enrich_no_pattern_witness :
    ¬ HasPattern isFoldingOf "оборудование7 и Оборудование №7".toList ∧
    enrichLogMessage (some [some (7, "Polisher".toList)])
      "оборудование7 и Оборудование №7".toList =
      "оборудование7 и Оборудование №7".toList :=
  ⟨fun h => absurd ((hasReference_iff_hasPattern _).2 h) (by decide),
    enrich_no_pattern _ _
      (fun h => absurd ((hasReference_iff_hasPattern _).2 h) (by decide))⟩

/-- Claim C4: when the directory fetch fails (`db.Query` returns an error),
`enrichLogMessage` returns every non-empty message unchanged, whatever
references it contains; the function is total, no error reaches the caller. -/
theorem enrich_fetch_failure (msg : Text) (h : msg ≠ []) :
    enrichLogMessage none msg = msg := by
  unfold enrichLogMessage enrichLogMessageTraced
  simp [h]

/-- An instance of claim C4: a message with a reference and a failing fetch. -/
theorem enrich_fetch_failure_witness :
    "оборудование 7".toList ≠ [] ∧
    enrichLogMessage none "оборудование 7".toList = "оборудование 7".toList :=
  ⟨by decide, enrich_fetch_failure _ (by decide)⟩

/-- Claim C5: matching ignores letter case and the rewrite keeps the word as
written. For every list of catalog rows with `id` bound to `t`, and every
casing variant `v` of a stem word `w` (each letter of it, also behind the
stem, independently capital or small), `v ++ " " ++ id` is enriched to
`v ++ " \"" ++ t ++ "\" (ID " ++ id ++ ")"`. -/
theorem enrich_case_insensitive (rows : List Row) (w v id t : Text)
    (hw : isStemWord w = true) (hv : isCasingOf v w = true)
    (hid : isDigitRun id = true) (hd : mapGet (buildEquipMap rows) id = some t) :
    enrichLogMessage (some rows) (v ++ " ".toList ++ id) =
      v ++ " \"".toList ++ t ++ "\" (ID ".toList ++ id ++ ")".toList := by
  have h := enrich_reference (buildEquipMap rows) (p := []) (q := []) (s := " ".toList) rfl
    (isCasingOf_isWord hw hv) (by decide) (by decide)
    (isDigitRun_spec hid).1 (isDigitRun_spec hid).2 rfl rfl
  rw [enrichLogMessage_some]
  simp only [List.append_assoc, List.nil_append, List.append_nil] at h ⊢
  rw [h, renderRef, hd]

/-- The example of claim C5: `ОБОРУДОВАНИЕ 1` and `оборудование 1` resolve
against the same entry and keep their casing. -/
theorem enrich_case_insensitive_witness :
    (isStemWord "оборудование".toList = true ∧
      isCasingOf "ОБОРУДОВАНИЕ".toList "оборудование".toList = true ∧
      isCasingOf "оборудование".toList "оборудование".toList = true ∧
      isDigitRun "1".toList = true ∧
      mapGet (buildEquipMap [some (1, "Filter".toList)]) "1".toList = some "Filter".toList) ∧
    enrichLogMessage (some [some (1, "Filter".toList)])
      ("ОБОРУДОВАНИЕ".toList ++ " ".toList ++ "1".toList) =
      "ОБОРУДОВАНИЕ".toList ++ " \"".toList ++ "Filter".toList ++ "\" (ID ".toList ++
        "1".toList ++ ")".toList ∧
    enrichLogMessage (some [some (1, "Filter".toList)])
      ("оборудование".toList ++ " ".toList ++ "1".toList) =
      "оборудование".toList ++ " \"".toList ++ "Filter".toList ++ "\" (ID ".toList ++
        "1".toList ++ ")".toList :=
  ⟨by decide,
    enrich_case_insensitive [some (1, "Filter".toList)] "оборудование".toList
      "ОБОРУДОВАНИЕ".toList "1".toList "Filter".toList
      (by decide) (by decide) (by decide) (by decide),
    enrich_case_insensitive [some (1, "Filter".toList)] "оборудование".toList
      "оборудование".toList "1".toList "Filter".toList
      (by decide) (by decide) (by decide) (by decide)⟩

/-- Claim C6 fails as stated: with the directory 1 → `оборудование 1` (a
title that itself contains a reference) the message `оборудование 1` is
enriched to `оборудование "оборудование 1" (ID 1)`, and a second pass
rewrites the reference inside the title once more. -/
theorem enrich_twice_counterexample :
    enrichLogMessage (some [some (1, "оборудование 1".toList)]) "оборудование 1".toList =
      "оборудование \"оборудование 1\" (ID 1)".toList ∧
    enrichLogMessage (some [some (1, "оборудование 1".toList)])
      (enrichLogMessage (some [some (1, "оборудование 1".toList)]) "оборудование 1".toList) =
      "оборудование \"оборудование \"оборудование 1\" (ID 1)\" (ID 1)".toList ∧
    enrichLogMessage (some [some (1, "оборудование 1".toList)])
      (enrichLogMessage (some [some (1, "оборудование 1".toList)]) "оборудование 1".toList) ≠
      enrichLogMessage (some [some (1, "оборудование 1".toList)]) "оборудование 1".toList := by
  decide

/-- Claim C6, amended: a second pass over already-enriched text is a no-op
for every directory in which no title contains a reference, and every
message. -/
theorem enrich_twice_inert_titles (rows : List Row)
    (hd : ∀ k t, mapGet (buildEquipMap rows) k = some t → hasReference t = false)
    (msg : Text) :
    enrichLogMessage (some rows) (enrichLogMessage (some rows) msg) =
      enrichLogMessage (some rows) msg := by
  simp only [enrichLogMessage_some]
  exact enrich_idem _ (fun k t h => hasReference_false (hd k t h)) msg

/-- An instance of the amended claim C6, with the directory 1 → Filter,
7 → Polisher. -/
theorem enrich_twice_inert_titles_witness :
    (∀ t ∈ (buildEquipMap [some (1, "Filter".toList), some (7, "Polisher".toList)]).map
        Prod.snd, hasReference t = false) ∧
    enrichLogMessage (some [some (1, "Filter".toList), some (7, "Polisher".toList)])
      (enrichLogMessage (some [some (1, "Filter".toList), some (7, "Polisher".toList)])
        "оборудования 7 и оборудование 99".toList) =
      enrichLogMessage (some [some (1, "Filter".toList), some (7, "Polisher".toList)])
        "оборудования 7 и оборудование 99".toList :=
  ⟨by decide,
    enrich_twice_inert_titles [some (1, "Filter".toList), some (7, "Polisher".toList)]
      (fun _ t h => (by decide : ∀ t ∈ (buildEquipMap
        [some (1, "Filter".toList), some (7, "Polisher".toList)]).map Prod.snd,
        hasReference t = false) t (mapGet_mem h)) _⟩

/-- Claim C7 fails as stated: with the directory 7 → Polisher the message
`оборудование 7abc` is not left untouched; the digit `7` is matched as the
ID and the garbage `abc` stays behind the rewritten reference. -/
theorem enrich_garbage_counterexample :
    enrichLogMessage (some [some (7, "Polisher".toList)]) "оборудование 7abc".toList =
      "оборудование \"Polisher\" (ID 7)abc".toList ∧
    enrichLogMessage (some [some (7, "Polisher".toList)]) "оборудование 7abc".toList ≠
      "оборудование 7abc".toList := by
  decide

/-- Claim C7, amended: digits that are followed by non-digit garbage are
still matched as the ID. For every list of catalog rows, every stem word in
any casing `v`, whitespace run `s`, digit string `id` and garbage `g` that
does not begin with a digit and contains no reference: the message
`v ++ s ++ id ++ g` is left untouched when `id` is not a key of the
directory, and is rewritten to `v "t" (ID id)` followed by `g` when `id` is
bound to `t`. -/
theorem enrich_digits_then_garbage (rows : List Row) (w v s id g : Text)
    (hw : isStemWord w = true) (hv : isCasingOf v w = true)
    (hs : isSpaceRun s = true) (hid : isDigitRun id = true)
    (hg : hasReference g = false) (hg2 : startsWithDigit g = false) :
    (mapGet (buildEquipMap rows) id = none →
      enrichLogMessage (some rows) (v ++ s ++ id ++ g) = v ++ s ++ id ++ g) ∧
    (∀ t, mapGet (buildEquipMap rows) id = some t →
      enrichLogMessage (some rows) (v ++ s ++ id ++ g) =
        v ++ " \"".toList ++ t ++ "\" (ID ".toList ++ id ++ ")".toList ++ g) := by
  have h := enrich_reference (buildEquipMap rows) (p := []) rfl
    (isCasingOf_isWord hw hv) (isSpaceRun_spec hs).1 (isSpaceRun_spec hs).2
    (isDigitRun_spec hid).1 (isDigitRun_spec hid).2 (hasReference_false hg) hg2
  rw [enrichLogMessage_some]
  simp only [List.append_assoc, List.nil_append] at h ⊢
  rw [h, renderRef]
  constructor
  · intro hd
    rw [hd]
    simp only [List.append_assoc]
  · intro t hd
    rw [hd]
    simp only [List.append_assoc]

/-- An instance of the amended claim C7: `оборудование 7abc` with and without
an entry for 7. -/
theorem enrich_digits_then_garbage_witness :
    (isStemWord "оборудование".toList = true ∧
      isCasingOf "оборудование".toList "оборудование".toList = true ∧
      isSpaceRun " ".toList = true ∧ isDigitRun "7".toList = true ∧
      hasReference "abc".toList = false ∧ startsWithDigit "abc".toList = false ∧
      mapGet (buildEquipMap [some (1, "Filter".toList)]) "7".toList = none ∧
      mapGet (buildEquipMap [some (7, "Polisher".toList)]) "7".toList =
        some "Polisher".toList) ∧
    enrichLogMessage (some [some (1, "Filter".toList)])
      ("оборудование".toList ++ " ".toList ++ "7".toList ++ "abc".toList) =
      "оборудование".toList ++ " ".toList ++ "7".toList ++ "abc".toList ∧
    enrichLogMessage (some [some (7, "Polisher".toList)])
      ("оборудование".toList ++ " ".toList ++ "7".toList ++ "abc".toList) =
      "оборудование".toList ++ " \"".toList ++ "Polisher".toList ++ "\" (ID ".toList ++
        "7".toList ++ ")".toList ++ "abc".toList :=
  ⟨by decide,
    (enrich_digits_then_garbage [some (1, "Filter".toList)] "оборудование".toList
      "оборудование".toList " ".toList "7".toList "abc".toList
      (by decide) (by decide) (by decide) (by decide) (by decide) (by decide)).1 (by decide),
    (enrich_digits_then_garbage [some (7, "Polisher".toList)] "оборудование".toList
      "оборудование".toList " ".toList "7".toList "abc".toList
      (by decide) (by decide) (by decide) (by decide) (by decide) (by decide)).2
      "Polisher".toList (by decide)⟩

/-- Claim C8: an ID written with a leading zero is never resolved. For every
list of catalog rows, every key of the directory is the `strconv.Itoa`
rendering of the integer ID of a fetched row; a digit string of length at least 2 that begins with `0` is
not a key; and every reference of a message whose captured digits are such
a string stands unchanged in the output, between the enrichment of the text
before it and the enrichment of the text behind it. -/
theorem enrich_leading_zero (rows : List Row) :
    (∀ k t, mapGet (buildEquipMap rows) k = some t →
      ∃ i : Int, some (i, t) ∈ rows ∧ k = Itoa i) ∧
    (∀ id : Text, 2 ≤ id.length → id.head? = some '0' →
      mapGet (buildEquipMap rows) id = none) ∧
    (∀ (msg : Text) k m, (k, m) ∈ FindAllStringSubmatchIndex msg →
      2 ≤ m.id.length → m.id.head? = some '0' →
      enrichLogMessage (some rows) msg =
        enrichLogMessage (some rows) (msg.take k) ++ m.text ++
          enrichLogMessage (some rows) (msg.drop (k + m.text.length))) := by
  refine ⟨buildEquipMap_keys rows, fun id h1 h2 => mapGet_leading_zero rows h1 h2, ?_⟩
  intro msg k m hk h1 h2
  simp only [enrichLogMessage_some]
  rw [enrich_at_match (buildEquipMap rows) msg k m hk,
    render_none (mapGet_leading_zero rows h1 h2), List.append_assoc]

/-- The example of claim C8: `оборудование 007` is left unchanged although a
row with ID 7 exists, while `оборудование 7` in the same message is
rewritten. -/
theorem enrich_leading_zero_witness :
    ((0, Match.mk "оборудование".toList " ".toList "007".toList) ∈
        FindAllStringSubmatchIndex "оборудование 007, оборудование 7".toList ∧
      2 ≤ "007".toList.length ∧ "007".toList.head? = some '0') ∧
    enrichLogMessage (some [some (7, "Polisher".toList)])
      "оборудование 007, оборудование 7".toList =
      [] ++ "оборудование 007".toList ++ ", оборудование \"Polisher\" (ID 7)".toList :=
  ⟨by decide,
    ((enrich_leading_zero [some (7, "Polisher".toList)]).2.2
      "оборудование 007, оборудование 7".toList 0
      (Match.mk "оборудование".toList " ".toList "007".toList)
      (by decide) (by decide) (by decide)).trans (by decide)⟩

/-- Claim C9: on the empty message the result is the empty message whatever
the state of the catalog (failing, or any rows), and no query is sent to the
database, whereas every non-empty message sends the one query of the
directory fetch. -/
theorem enrich_empty (db : Catalog) :
    enrichLogMessage db [] = [] ∧ (enrichLogMessageTraced db []).2 = [] ∧
    ∀ (c : Char) (cs : Text), (enrichLogMessageTraced db (c :: cs)).2 =
      ["SELECT equipment_id, title FROM equipment"] := by
  refine ⟨rfl, rfl, ?_⟩
  intro c cs
  cases db <;> rfl

/-- Claim C10: enrichment is idempotent whenever the titles are inert. For
every list of catalog rows in whose directory no title contains a reference
(as is every title without a decimal digit) and every message: a second
pass returns the enriched message, and the matches of the enriched message
are exactly the matches of the message whose ID is not a key of the
directory. -/
theorem enrich_idempotent_inert (rows : List Row)
    (hd : ∀ k t, mapGet (buildEquipMap rows) k = some t → hasReference t = false)
    (msg : Text) :
    enrichLogMessage (some rows) (enrichLogMessage (some rows) msg) =
      enrichLogMessage (some rows) msg ∧
    (FindAllStringSubmatchIndex (enrichLogMessage (some rows) msg)).map Prod.snd =
      ((FindAllStringSubmatchIndex msg).map Prod.snd).filter
        (fun m => (mapGet (buildEquipMap rows) m.id).isNone) ∧
    (∀ t : Text, (∀ c ∈ t, isDigit c = false) → hasReference t = false) := by
  have hd2 : ∀ k t, mapGet (buildEquipMap rows) k = some t → findMatch t = none :=
    fun k t h => hasReference_false (hd k t h)
  refine ⟨?_, ?_, ?_⟩
  · simp only [enrichLogMessage_some]
    exact enrich_idem _ hd2 msg
  · simp only [enrichLogMessage_some]
    exact allMatches_enrich _ hd2 msg
  · intro t ht
    unfold hasReference
    rw [findMatch_no_digit ht]
    rfl

/-- An instance of claim C10, with the directory 1 → Filter, 7 → Polisher:
the enriched message has the single match `оборудование 99`. -/
theorem enrich_idempotent_inert_witness :
    (∀ t ∈ (buildEquipMap [some (1, "Filter".toList), some (7, "Polisher".toList)]).map
        Prod.snd, hasReference t = false) ∧
    (FindAllStringSubmatchIndex
      (enrichLogMessage (some [some (1, "Filter".toList), some (7, "Polisher".toList)])
        "оборудования 7 и оборудование 99".toList)).map Prod.snd =
      [Match.mk "оборудование".toList " ".toList "99".toList] :=
  ⟨by decide,
    ((enrich_idempotent_inert [some (1, "Filter".toList), some (7, "Polisher".toList)]
      (fun _ t h => (by decide : ∀ t ∈ (buildEquipMap
        [some (1, "Filter".toList), some (7, "Polisher".toList)]).map Prod.snd,
        hasReference t = false) t (mapGet_mem h))
      "оборудования 7 и оборудование 99".toList).2.1).trans (by decide)⟩

end LensFactory
